import Mathlib

/-!
Verification of the GuardPlanner scheduling engine (src/GuardPlanner.py).

Embedding conventions:
* A calendar date is an `Int`: day `k` of the target month is `k`, so the month
  is the interval `[1, numDays]`.  A real date before the month's first day is
  any `k < 1` and a date on/after the first day of the next month is any
  `k > numDays` (the source's `d < month_start or d >= month_end`).
* `firstWeekday` is the weekday of day 1 (0 = Monday … 6 = Sunday), so day `d`
  has weekday `(firstWeekday + d - 1) % 7` and is a weekend day when that is
  `≥ 5`, exactly as `date.weekday() >= 5` in the source.
* Python dictionaries (`schedule`, `target_counts`) and `defaultdict(int)`
  counters become functions updated pointwise; a missing `schedule` key is
  `none`.
* Python's builtin `sorted` is a stable sort; for a total boolean `le` a
  stable sort is uniquely determined, and `pySorted` below (stable insertion
  sort) computes it.  `sorted(people, key=dlm, reverse=True)` is `pySorted`
  with `le a b := b.dlm ≤ a.dlm` (ties keep original order, as in Python).
* The two failure points of the script are modelled in `Err`:
  `conflictError d` is the `ValueError(f"duplicate preassignment on {d}")` at
  the preassignment loop, and `zeroDivisionError` is the uncaught
  `ZeroDivisionError` of `total_days // total_ppl` on an empty roster
  (Lean's `Nat` division is total, so the Python exception is made explicit).
-/

namespace GuardPlanner

/-- The sentinel value used for unfilled dates. -/
def UNASSIGNED : String := "UNASSIGNED"

/-- One roster entry, as parsed from the input JSON. -/
structure Person where
  name : String
  needs_weekends : Bool
  unavailable_dates : List Int
  duties_last_month : Nat
  preassigned_dates : List Int
deriving DecidableEq, Repr

/-- Pointwise update of a function, for dict/defaultdict writes. -/
def fupd [DecidableEq α] (f : α → β) (a : α) (b : β) : α → β :=
  fun x => if x = a then b else f x

/-- Stable insertion of `a` into `l`: `a` is placed before the first element
`b` with `le a b` (so on ties the earlier-inserted element stays behind). -/
def pyInsert (le : α → α → Bool) (a : α) : List α → List α
  | [] => [a]
  | b :: l => if le a b then a :: b :: l else b :: pyInsert le a l

/-- Python's stable `sorted` for a total boolean relation `le`. -/
def pySorted (le : α → α → Bool) (xs : List α) : List α :=
  xs.foldr (pyInsert le) []

/-- Lexicographic comparison of equal-length integer key lists, as Python
compares key tuples. -/
def lexLe : List Int → List Int → Bool
  | [], _ => true
  | _ :: _, [] => false
  | a :: as, b :: bs => if a < b then true else if b < a then false else lexLe as bs

/-- `dates`: days 1 … numDays of the target month. -/
def dates (numDays : Nat) : List Int :=
  (List.range numDays).map (fun i => Int.ofNat i + 1)

/-- `d.weekday() >= 5` for day `d` of a month whose first day has weekday
`fw` (0 = Monday … 6 = Sunday). -/
def isWeekendDay (fw : Nat) (d : Int) : Bool :=
  5 ≤ ((fw : Int) + d - 1) % 7

/-- `weekends = [d for d in dates if d.weekday() >= 5]`. -/
def weekends (numDays fw : Nat) : List Int :=
  (dates numDays).filter (isWeekendDay fw)

/-- `weekend_dates = sorted(weekends)` (`weekends` is already chronological,
so the sort is the identity; it is kept for faithfulness). -/
def weekend_dates (numDays fw : Nat) : List Int :=
  pySorted (fun a b => decide (a ≤ b)) (weekends numDays fw)

/-- `weekend_people = [p for p in people if p["needs_weekends"]]`. -/
def weekend_people (people : List Person) : List Person :=
  people.filter (·.needs_weekends)

/-- `base_quota = total_days // total_ppl`; the `total_ppl = 0` case is the
`ZeroDivisionError` handled in `run`. -/
def base_quota (numDays : Nat) (people : List Person) : Nat :=
  numDays / people.length

/-- `extra = total_days % total_ppl`. -/
def extra (numDays : Nat) (people : List Person) : Nat :=
  numDays % people.length

/-- `sorted(people, key=lambda p: p["duties_last_month"], reverse=True)`. -/
def sorted_people (people : List Person) : List Person :=
  pySorted (fun a b => decide (b.duties_last_month ≤ a.duties_last_month)) people

/-- The `for i, person in enumerate(sorted_people)` loop writing
`target_counts[person["name"]] = quota`. -/
def assignQuotas (base ext : Nat) : Nat → List Person → (String → Nat) → (String → Nat)
  | _, [], t => t
  | i, person :: rest, t =>
    let quota := base + (if i < ext then 1 else 0)
    let quota := if base < person.duties_last_month then max (quota - 1) base else quota
    assignQuotas base ext (i + 1) rest (fupd t person.name quota)

/-- The `for p in weekend_people: target_counts[p["name"]] = max(..., 2)` loop. -/
def raiseWeekendTargets : List Person → (String → Nat) → (String → Nat)
  | [], t => t
  | p :: rest, t => raiseWeekendTargets rest (fupd t p.name (max (t p.name) 2))

/-- `target_counts` as a lookup function (every roster name is written by
`assignQuotas`, so the `0` default is never read for a roster member). -/
def target_counts (numDays : Nat) (people : List Person) : String → Nat :=
  raiseWeekendTargets (weekend_people people)
    (assignQuotas (base_quota numDays people) (extra numDays people) 0
      (sorted_people people) (fun _ => 0))

/-- The mutable engine state: `schedule`, `preassigned_set`,
`assigned_counts`, `weekend_counts`, `last_assigned`. -/
structure St where
  schedule : Int → Option String
  preassigned_set : List Int
  assigned_counts : String → Nat
  weekend_counts : String → Nat
  last_assigned : String → Option Int

/-- Initial state: empty dictionaries, zero counters. -/
def St.init : St :=
  { schedule := fun _ => none
    preassigned_set := []
    assigned_counts := fun _ => 0
    weekend_counts := fun _ => 0
    last_assigned := fun _ => none }

/-- `days_since_last_duty`. -/
def days_since_last_duty (st : St) (person_name : String) (current_date : Int) : Int :=
  match st.last_assigned person_name with
  | none => 999
  | some last => current_date - last

/-- `violates_back_to_back`. -/
def violates_back_to_back (st : St) (name : String) (date : Int) : Bool :=
  st.schedule (date - 1) == some name || st.schedule (date + 1) == some name

/-- The two fatal outcomes of the script (see the file header). -/
inductive Err where
  | conflictError (d : Int)
  | zeroDivisionError
deriving DecidableEq, Repr

/-- Commit one preassigned date `d` of person `p` (the body of the inner
preassignment loop): skip dates outside the target month, raise on a date
already in the schedule, otherwise write the schedule entry and counters. -/
def preassignDate (numDays fw : Nat) (p : Person) (st : St) (d : Int) : Except Err St :=
  if d < 1 || (numDays : Int) < d then pure st
  else if (st.schedule d).isSome then throw (.conflictError d)
  else pure
    { st with
      schedule := fupd st.schedule d (some p.name)
      preassigned_set := d :: st.preassigned_set
      assigned_counts := fupd st.assigned_counts p.name (st.assigned_counts p.name + 1)
      last_assigned := fupd st.last_assigned p.name (some d)
      weekend_counts :=
        if isWeekendDay fw d then
          fupd st.weekend_counts p.name (st.weekend_counts p.name + 1)
        else st.weekend_counts }

/-- Preassignment for one person: the inner `for d in p["preassigned_dates"]`. -/
def preassignPerson (numDays fw : Nat) (st : St) (p : Person) : Except Err St :=
  p.preassigned_dates.foldlM (preassignDate numDays fw p) st

/-- The whole `--- PREASSIGN DATES ---` loop. -/
def preassignAll (numDays fw : Nat) (people : List Person) : Except Err St :=
  people.foldlM (preassignPerson numDays fw) St.init

/-- The weekend-allocation sort key
`(weekend_counts, assigned_counts, -days_since_last_duty, duties_last_month)`. -/
def weekendKey (st : St) (date : Int) (x : Person) : List Int :=
  [ (st.weekend_counts x.name : Int),
    (st.assigned_counts x.name : Int),
    -(days_since_last_duty st x.name date),
    (x.duties_last_month : Int) ]

/-- Strict weekend candidates: available, no back-to-back, under the
two-weekend cap. -/
def weekendStrictCands (people : List Person) (st : St) (date : Int) : List Person :=
  (weekend_people people).filter (fun p =>
    !(p.unavailable_dates.contains date)
    && !(violates_back_to_back st p.name date)
    && st.weekend_counts p.name < 2)

/-- Relaxed weekend candidates: the cap `weekend_counts < 2` is dropped. -/
def weekendRelaxedCands (people : List Person) (st : St) (date : Int) : List Person :=
  (weekend_people people).filter (fun p =>
    !(p.unavailable_dates.contains date)
    && !(violates_back_to_back st p.name date))

/-- One iteration of the `--- WEEKEND ASSIGNMENT ---` loop. -/
def weekendStep (people : List Person) (st : St) (date : Int) : St :=
  if date ∈ st.preassigned_set then st
  else
    let candidates := weekendStrictCands people st date
    let candidates :=
      if candidates.isEmpty then weekendRelaxedCands people st date else candidates
    match pySorted (fun a b => lexLe (weekendKey st date a) (weekendKey st date b))
        candidates with
    | [] => st
    | chosen :: _ =>
      { st with
        schedule := fupd st.schedule date (some chosen.name)
        weekend_counts := fupd st.weekend_counts chosen.name (st.weekend_counts chosen.name + 1)
        assigned_counts := fupd st.assigned_counts chosen.name (st.assigned_counts chosen.name + 1)
        last_assigned := fupd st.last_assigned chosen.name (some date) }

/-- The whole weekend-assignment loop. -/
def weekendPhase (numDays fw : Nat) (people : List Person) (st : St) : St :=
  (weekend_dates numDays fw).foldl (weekendStep people) st

/-- The weekday-allocation sort key
`(assigned_counts, duties_last_month, -days_since_last_duty)`. -/
def weekdayKey (st : St) (date : Int) (x : Person) : List Int :=
  [ (st.assigned_counts x.name : Int),
    (x.duties_last_month : Int),
    -(days_since_last_duty st x.name date) ]

/-- Strict weekday candidates: not preassigned to someone else, available,
weekend-eligible if the date is a weekend, no back-to-back, under quota. -/
def weekdayStrictCands (numDays fw : Nat) (people : List Person) (tc : String → Nat)
    (st : St) (date : Int) : List Person :=
  people.filter (fun p =>
    !(p.preassigned_dates.contains date && st.schedule date != some p.name)
    && !(p.unavailable_dates.contains date)
    && !((weekends numDays fw).contains date && !p.needs_weekends)
    && !(violates_back_to_back st p.name date)
    && !(tc p.name ≤ st.assigned_counts p.name))

/-- Relaxed weekday candidates: the quota cap is dropped, all other
constraints kept. -/
def weekdayRelaxedCands (numDays fw : Nat) (people : List Person)
    (st : St) (date : Int) : List Person :=
  people.filter (fun p =>
    !(p.preassigned_dates.contains date && st.schedule date != some p.name)
    && !(p.unavailable_dates.contains date)
    && !((weekends numDays fw).contains date && !p.needs_weekends)
    && !(violates_back_to_back st p.name date))

/-- One iteration of the `--- WEEKDAY ASSIGNMENT ---` loop. -/
def weekdayStep (numDays fw : Nat) (people : List Person) (tc : String → Nat)
    (st : St) (date : Int) : St :=
  if (st.schedule date).isSome then st
  else
    let candidates := weekdayStrictCands numDays fw people tc st date
    let candidates :=
      if candidates.isEmpty then weekdayRelaxedCands numDays fw people st date
      else candidates
    match pySorted (fun a b => lexLe (weekdayKey st date a) (weekdayKey st date b))
        candidates with
    | [] => { st with schedule := fupd st.schedule date (some UNASSIGNED) }
    | chosen :: _ =>
      { st with
        schedule := fupd st.schedule date (some chosen.name)
        assigned_counts := fupd st.assigned_counts chosen.name (st.assigned_counts chosen.name + 1)
        last_assigned := fupd st.last_assigned chosen.name (some date)
        weekend_counts :=
          if (weekends numDays fw).contains date then
            fupd st.weekend_counts chosen.name (st.weekend_counts chosen.name + 1)
          else st.weekend_counts }

/-- The whole weekday-assignment loop. -/
def weekdayPhase (numDays fw : Nat) (people : List Person) (st : St) : St :=
  (dates numDays).foldl (weekdayStep numDays fw people (target_counts numDays people)) st

/-- The inner date scan of the repair pass for one person `p`, stopping at
the first applicable repair (the `break`).  After the weekday phase every
month date is a schedule key, so the `none` schedule branch (where the
source's `weekend_counts[schedule[date]]` would be a `KeyError`) is
unreachable and is skipped like the guard failure. -/
def repairScan (st : St) (p : Person) : List Int → St
  | [] => st
  | date :: rest =>
    if date ∈ st.preassigned_set then repairScan st p rest
    else if st.schedule date == some UNASSIGNED then
      if !(p.unavailable_dates.contains date)
          && !(violates_back_to_back st p.name date) then
        { st with
          schedule := fupd st.schedule date (some p.name)
          weekend_counts := fupd st.weekend_counts p.name (st.weekend_counts p.name + 1)
          assigned_counts := fupd st.assigned_counts p.name (st.assigned_counts p.name + 1)
          last_assigned := fupd st.last_assigned p.name (some date) }
      else repairScan st p rest
    else
      match st.schedule date with
      | some old =>
        if old != p.name && 3 ≤ st.weekend_counts old
            && !(p.unavailable_dates.contains date)
            && !(violates_back_to_back st p.name date) then
          { st with
            schedule := fupd st.schedule date (some p.name)
            weekend_counts :=
              fupd (fupd st.weekend_counts p.name (st.weekend_counts p.name + 1)) old
                (st.weekend_counts old - 1)
            assigned_counts :=
              fupd (fupd st.assigned_counts p.name (st.assigned_counts p.name + 1)) old
                (st.assigned_counts old - 1)
            last_assigned := fupd st.last_assigned p.name (some date) }
        else repairScan st p rest
      | none => repairScan st p rest

/-- The `--- FIX SINGLE WEEKEND ASSIGNMENTS WHERE POSSIBLE ---` pass:
`people_with_one` is computed once, then each such person scans the weekend
dates. -/
def repairPhase (numDays fw : Nat) (people : List Person) (st : St) : St :=
  let people_with_one :=
    (weekend_people people).filter (fun p => st.weekend_counts p.name == 1)
  people_with_one.foldl (fun st p => repairScan st p (weekend_dates numDays fw)) st

/-- The whole engine: quota check (the Python `ZeroDivisionError` on an empty
roster happens at `base_quota`, before any scheduling), preassignment
(which can raise the duplicate-preassignment `ValueError`), then the three
allocation passes in source order. -/
def run (numDays fw : Nat) (people : List Person) : Except Err St :=
  if people.isEmpty then throw .zeroDivisionError
  else do
    let st ← preassignAll numDays fw people
    let st := weekendPhase numDays fw people st
    let st := weekdayPhase numDays fw people st
    pure (repairPhase numDays fw people st)

/-- One record of the rollover seed written for the next month. -/
structure RolloverRecord where
  name : String
  needs_weekends : Bool
  unavailable_dates : List Int
  duties_last_month : Nat
deriving DecidableEq, Repr

/-- `next_data`: the rollover seed built from the final state.  The source
shuffles `people` (`random.shuffle`) before this loop, so the list is an
arbitrary permutation `shuffled` of the roster. -/
def next_data (shuffled : List Person) (st : St) : List RolloverRecord :=
  shuffled.map (fun p =>
    { name := p.name
      needs_weekends := st.weekend_counts p.name == 0
      unavailable_dates := []
      duties_last_month := st.assigned_counts p.name })

/-- Extract the final state of a successful run (`St.init` on error). -/
def runState (e : Except Err St) : St :=
  match e with
  | .ok st => st
  | .error _ => St.init

/-- Number of UNASSIGNED dates in the final schedule. -/
def unassignedCount (numDays : Nat) (st : St) : Nat :=
  (dates numDays).countP (fun d => st.schedule d == some UNASSIGNED)

end GuardPlanner

/-! ## Concrete scenarios

All concrete runs below use a 28-day month whose first day is a Monday
(`firstWeekday = 0`), so the weekend days are 6, 7, 13, 14, 20, 21, 27, 28. -/

namespace GuardPlanner

/-- Four-person roster of the spec's concrete scenario: nobody needs
weekends, no unavailability, no preassignments, `duties_last_month = 0`. -/
def fourPeople : List Person :=
  [ ⟨"Alice", false, [], 0, []⟩, ⟨"Bob", false, [], 0, []⟩,
    ⟨"Carol", false, [], 0, []⟩, ⟨"Dave", false, [], 0, []⟩ ]

/-- Quota-monotonicity scenario: a 31-day month with two unconstrained
people, A having done strictly more duties last month than B. -/
def quotaPeople : List Person :=
  [ ⟨"A", false, [], 10, []⟩, ⟨"B", false, [], 5, []⟩ ]

/-- Weekend-exclusivity scenario: Bob does not need weekends but is
preassigned to day 6, a Saturday. -/
def weekendPrePeople : List Person :=
  [ ⟨"Alice", true, [], 0, []⟩, ⟨"Bob", false, [], 0, [6]⟩ ]

/-- Adjacency scenario: Ann is preassigned to the adjacent days 1 and 2. -/
def adjacentPrePeople : List Person :=
  [ ⟨"Ann", false, [], 0, [1, 2]⟩, ⟨"Ben", false, [], 0, []⟩ ]

/-- Duplicate-preassignment scenario: two distinct people both preassigned
to day 5. -/
def duplicatePrePeople : List Person :=
  [ ⟨"Ann", false, [], 0, [5]⟩, ⟨"Ben", false, [], 0, [5]⟩ ]

/-- Out-of-month preassignments: both people share the date three days
before the month and A also has one past its end; nothing is in conflict
inside the month. -/
def outOfMonthPeople : List Person :=
  [ ⟨"A", false, [], 0, [-3, 40]⟩, ⟨"B", false, [], 0, [-3]⟩ ]

/-- A date of the target month, as the preassignment loop tests it:
the source skips `d` iff `d < month_start or d >= month_end`. -/
def inMonth (numDays : Nat) (d : Int) : Prop :=
  1 ≤ d ∧ d ≤ (numDays : Int)

instance (numDays : Nat) (d : Int) : Decidable (inMonth numDays d) := by
  unfold inMonth; infer_instance

/-- Two distinct roster entries both preassign the in-month date `e`. -/
def splitConflictAt (numDays : Nat) (e : Int) (people : List Person) : Prop :=
  ∃ l₁ p l₂ q l₃, people = l₁ ++ p :: l₂ ++ q :: l₃ ∧
    inMonth numDays e ∧ e ∈ p.preassigned_dates ∧ e ∈ q.preassigned_dates

/-- Number of weekend-needing people currently holding exactly one weekend
(the quantity the repair pass tries to shrink). -/
def count1 (people : List Person) (st : St) : Nat :=
  (weekend_people people).countP (fun p => st.weekend_counts p.name == 1)

/-- A person record with its out-of-month preassigned dates dropped
(what the preassignment loop's `continue` effectively does). -/
def dropOutOfMonth (numDays : Nat) (p : Person) : Person :=
  { p with preassigned_dates :=
      p.preassigned_dates.filter (fun d => !(d < 1 || (numDays : Int) < d)) }

end GuardPlanner

/-! ## Basic lemmas about the helper functions -/

namespace GuardPlanner

theorem fupd_same [DecidableEq α] (f : α → β) (a : α) (b : β) : fupd f a b a = b := by
  simp [fupd]

theorem fupd_other [DecidableEq α] (f : α → β) {a x : α} (b : β) (h : x ≠ a) :
    fupd f a b x = f x := by
  simp [fupd, h]

theorem pyInsert_perm (le : α → α → Bool) (a : α) (l : List α) :
    (pyInsert le a l).Perm (a :: l) := by
  induction l with
  | nil => exact List.Perm.refl _
  | cons b t ih =>
    simp only [pyInsert]
    split
    · exact List.Perm.refl _
    · exact (ih.cons b).trans (List.Perm.swap a b t)

theorem pySorted_perm (le : α → α → Bool) (l : List α) : (pySorted le l).Perm l := by
  induction l with
  | nil => exact List.Perm.refl _
  | cons a t ih =>
    show (pyInsert le a (pySorted le t)).Perm (a :: t)
    exact (pyInsert_perm le a (pySorted le t)).trans (ih.cons a)

theorem pySorted_eq_nil {le : α → α → Bool} {l : List α} (h : pySorted le l = []) :
    l = [] := by
  have := (pySorted_perm le l).length_eq
  rw [h] at this
  exact List.length_eq_zero.mp this.symm

theorem mem_of_pySorted_head {le : α → α → Bool} {l t : List α} {c : α}
    (h : pySorted le l = c :: t) : c ∈ l := by
  have := (pySorted_perm le l).mem_iff (a := c)
  rw [h] at this
  exact this.mp (List.mem_cons_self _ _)

theorem foldl_inv {β α : Type _} {f : β → α → β} {P : β → Prop} :
    ∀ (l : List α) (b : β), (∀ x a, a ∈ l → P x → P (f x a)) → P b → P (l.foldl f b)
  | [], _, _, hb => hb
  | a :: t, b, h, hb =>
    foldl_inv t (f b a) (fun x a' ha' => h x a' (List.mem_cons_of_mem a ha'))
      (h b a (List.mem_cons_self _ _) hb)

theorem foldl_forall {β α : Type _} {f : β → α → β} {Q : α → β → Prop} :
    ∀ (l : List α) (b : β),
      (∀ x a a', a' ∈ l → Q a' x → Q a' (f x a)) →
      (∀ x a, a ∈ l → Q a (f x a)) →
      ∀ a ∈ l, Q a (l.foldl f b)
  | a₀ :: t, b, pres, est, a, ha => by
    rcases List.mem_cons.mp ha with rfl | hat
    · exact foldl_inv t (f b a)
        (fun x a' ha' => pres x a' a (List.mem_cons_self _ _))
        (est b a (List.mem_cons_self _ _))
    · exact foldl_forall t (f b a₀)
        (fun x a' a'' ha'' => pres x a' a'' (List.mem_cons_of_mem a₀ ha''))
        (fun x a' ha' => est x a' (List.mem_cons_of_mem a₀ ha'))
        a hat

theorem except_bind_ok (x : β) (f : β → Except Err γ) :
    (Except.ok x >>= f) = f x := rfl

theorem except_bind_error (e : Err) (f : β → Except Err γ) :
    ((Except.error e : Except Err β) >>= f) = Except.error e := rfl

theorem foldlM_ok_inv {β α : Type _} {f : β → α → Except Err β} {P : β → Prop} :
    ∀ (l : List α) (b b' : β), List.foldlM f b l = .ok b' →
      (∀ x a x', a ∈ l → f x a = .ok x' → P x → P x') → P b → P b'
  | [], b, b', h, _, hb => by
    simp only [List.foldlM_nil] at h
    cases h
    exact hb
  | a :: t, b, b', h, hstep, hb => by
    rw [List.foldlM_cons] at h
    cases hfa : f b a with
    | error e => rw [hfa, except_bind_error] at h; exact Except.noConfusion h
    | ok x =>
      rw [hfa, except_bind_ok] at h
      exact foldlM_ok_inv t x b' h
        (fun y a' y' ha' => hstep y a' y' (List.mem_cons_of_mem a ha'))
        (hstep b a x (List.mem_cons_self _ _) hfa hb)

end GuardPlanner

/-! ## Quota lemmas -/

namespace GuardPlanner

theorem assignQuotas_not_mem (base ext : Nat) :
    ∀ (l : List Person) (i : Nat) (t : String → Nat) {n : String},
      n ∉ l.map Person.name → assignQuotas base ext i l t n = t n := by
  intro l
  induction l with
  | nil => intro i t n _; rfl
  | cons p rest ih =>
    intro i t n h
    rw [List.map_cons, List.mem_cons] at h
    push_neg at h
    simp only [assignQuotas]
    rw [ih _ _ h.2, fupd_other _ _ h.1]

theorem assignQuotas_lookup_eq_base {base ext : Nat} :
    ∀ (l : List Person) (i : Nat) (t : String → Nat) {A : Person},
      (l.map Person.name).Nodup → A ∈ l → base < A.duties_last_month →
      assignQuotas base ext i l t A.name = base := by
  intro l
  induction l with
  | nil => intro i t A _ hA; exact absurd hA (List.not_mem_nil A)
  | cons p rest ih =>
    intro i t A hnd hA hdlm
    rw [List.map_cons, List.nodup_cons] at hnd
    rcases List.mem_cons.mp hA with rfl | hA'
    · simp only [assignQuotas]
      rw [assignQuotas_not_mem _ _ _ _ _ hnd.1, fupd_same]
      rw [if_pos hdlm]
      by_cases hi : i < ext
      · simp [hi]
      · simp only [if_neg hi, Nat.add_zero]
        exact Nat.max_eq_right (Nat.sub_le base 1)
    · simp only [assignQuotas]
      exact ih _ _ hnd.2 hA' hdlm

theorem assignQuotas_lookup_ge {base ext : Nat} :
    ∀ (l : List Person) (i : Nat) (t : String → Nat) {B : Person},
      (l.map Person.name).Nodup → B ∈ l →
      base ≤ assignQuotas base ext i l t B.name := by
  intro l
  induction l with
  | nil => intro i t B _ hB; exact absurd hB (List.not_mem_nil B)
  | cons p rest ih =>
    intro i t B hnd hB
    rw [List.map_cons, List.nodup_cons] at hnd
    rcases List.mem_cons.mp hB with rfl | hB'
    · simp only [assignQuotas]
      rw [assignQuotas_not_mem _ _ _ _ _ hnd.1, fupd_same]
      split
      · exact Nat.le_max_right _ _
      · exact Nat.le_add_right base _
    · simp only [assignQuotas]
      exact ih _ _ hnd.2 hB'

theorem raiseWeekendTargets_not_mem :
    ∀ (l : List Person) (t : String → Nat) {n : String},
      n ∉ l.map Person.name → raiseWeekendTargets l t n = t n := by
  intro l
  induction l with
  | nil => intro t n _; rfl
  | cons p rest ih =>
    intro t n h
    rw [List.map_cons, List.mem_cons] at h
    push_neg at h
    simp only [raiseWeekendTargets]
    rw [ih _ h.2, fupd_other _ _ h.1]

theorem raiseWeekendTargets_mono :
    ∀ (l : List Person) (t : String → Nat) (n : String),
      t n ≤ raiseWeekendTargets l t n := by
  intro l
  induction l with
  | nil => intro t n; exact Nat.le_refl _
  | cons p rest ih =>
    intro t n
    simp only [raiseWeekendTargets]
    refine Nat.le_trans ?_ (ih (fupd t p.name (max (t p.name) 2)) n)
    by_cases h : n = p.name
    · subst h; rw [fupd_same]; exact Nat.le_max_left _ _
    · rw [fupd_other _ _ h]

theorem mem_weekend_people {people : List Person} {p : Person} :
    p ∈ weekend_people people ↔ p ∈ people ∧ p.needs_weekends = true := by
  simp [weekend_people, List.mem_filter]

theorem not_mem_weekend_people_names {people : List Person} {A : Person}
    (hnd : (people.map Person.name).Nodup) (hA : A ∈ people)
    (hnw : A.needs_weekends = false) :
    A.name ∉ (weekend_people people).map Person.name := by
  intro h
  obtain ⟨q, hq, hqn⟩ := List.mem_map.mp h
  obtain ⟨hqp, hqw⟩ := mem_weekend_people.mp hq
  have : q = A := List.inj_on_of_nodup_map hnd hqp hA hqn
  rw [this] at hqw
  rw [hnw] at hqw
  exact Bool.noConfusion hqw

theorem mem_sorted_people {people : List Person} {p : Person} :
    p ∈ sorted_people people ↔ p ∈ people :=
  (pySorted_perm _ people).mem_iff

theorem sorted_people_names_nodup {people : List Person}
    (hnd : (people.map Person.name).Nodup) :
    ((sorted_people people).map Person.name).Nodup :=
  (((pySorted_perm _ people).map Person.name).nodup_iff).mpr hnd

end GuardPlanner

/-! ## Claims C1, C4, C7 and the concrete counterexamples for C2, C3 -/

namespace GuardPlanner

set_option maxRecDepth 40000

/-- C1 counterexample.  In the claimed scenario (4 people, none needing
weekends, 28-day month, no unavailability, no preassignments) it is false
that every person ends with `assigned_counts = 7` and that there are no
UNASSIGNED dates: nobody is weekend-eligible, so the 8 weekend days cannot
be filled and only the 20 weekdays are shared out. -/
theorem C1_counterexample :
    ¬ ((∀ n ∈ fourPeople.map Person.name,
          (runState (run 28 0 fourPeople)).assigned_counts n = 7) ∧
        unassignedCount 28 (runState (run 28 0 fourPeople)) = 0) := by
  decide

/-- C1 amended.  In that scenario the run completes, every person's
`target_counts` is 7 as claimed, but every person's final `assigned_counts`
is 5 and exactly the 8 weekend dates end UNASSIGNED. -/
theorem C1_amended :
    run 28 0 fourPeople = .ok (runState (run 28 0 fourPeople)) ∧
    (∀ n ∈ fourPeople.map Person.name,
        target_counts 28 fourPeople n = 7 ∧
        (runState (run 28 0 fourPeople)).assigned_counts n = 5) ∧
    unassignedCount 28 (runState (run 28 0 fourPeople)) = 8 ∧
    (∀ d ∈ dates 28,
        ((runState (run 28 0 fourPeople)).schedule d = some UNASSIGNED ↔
          isWeekendDay 0 d = true)) :=
  ⟨rfl, by decide, by decide, by decide⟩

/-- C4 counterexample.  In a 31-day month with two unconstrained people,
A with `duties_last_month = 10` and B with 5, the quota planner gives A the
`extra` day (it sorts people **descending** by last month's duties and hands
the `base_quota + 1` quotas to the first of them), so
`target_counts A = 16 > 15 = target_counts B` although A did strictly more
duties last month: the claimed monotonicity fails. -/
theorem C4_counterexample :
    ∃ pA ∈ quotaPeople, ∃ pB ∈ quotaPeople,
      pB.duties_last_month < pA.duties_last_month ∧
      pA.needs_weekends = false ∧ pB.needs_weekends = false ∧
      ¬ target_counts 31 quotaPeople pA.name ≤ target_counts 31 quotaPeople pB.name := by
  decide

/-- C4 amended.  The reduction step `quota = max(quota - 1, base_quota)`
only fires — and then pins the quota to exactly `base_quota` — when the
person's `duties_last_month` exceeds `base_quota`.  So the claimed
monotonicity holds under the additional hypothesis
`base_quota < A.duties_last_month`: A then gets exactly `base_quota`, which
is a lower bound for every quota. -/
theorem C4_amended (numDays : Nat) (people : List Person) (A B : Person)
    (hnd : (people.map Person.name).Nodup) (hA : A ∈ people) (hB : B ∈ people)
    (hAnw : A.needs_weekends = false) (hBnw : B.needs_weekends = false)
    (hlt : B.duties_last_month < A.duties_last_month)
    (hbase : base_quota numDays people < A.duties_last_month) :
    target_counts numDays people A.name ≤ target_counts numDays people B.name := by
  unfold target_counts
  rw [raiseWeekendTargets_not_mem _ _ (not_mem_weekend_people_names hnd hA hAnw)]
  rw [assignQuotas_lookup_eq_base _ _ _ (sorted_people_names_nodup hnd)
    (mem_sorted_people.mpr hA) hbase]
  exact Nat.le_trans
    (assignQuotas_lookup_ge _ _ _ (sorted_people_names_nodup hnd)
      (mem_sorted_people.mpr hB))
    (raiseWeekendTargets_mono _ _ _)

/-- Witness for `C4_amended` at a concrete input: 28-day month, A with 20
duties last month (above the base quota 14), B with 1. -/
theorem C4_amended_witness :
    base_quota 28 [⟨"A", false, [], 20, []⟩, ⟨"B", false, [], 1, []⟩] < 20 ∧
    target_counts 28 [⟨"A", false, [], 20, []⟩, ⟨"B", false, [], 1, []⟩] "A" ≤
      target_counts 28 [⟨"A", false, [], 20, []⟩, ⟨"B", false, [], 1, []⟩] "B" :=
  ⟨by decide,
    C4_amended 28 [⟨"A", false, [], 20, []⟩, ⟨"B", false, [], 1, []⟩]
      ⟨"A", false, [], 20, []⟩ ⟨"B", false, [], 1, []⟩
      (by decide) (by decide) (by decide) rfl rfl (by decide) (by decide)⟩

/-- C7 counterexample.  On an empty roster the engine does abort before any
scheduling, but with the uncaught `ZeroDivisionError` of
`base_quota = total_days // total_ppl` — the source performs no roster
validation and defines no `InvalidInputError`. -/
theorem C7_counterexample :
    run 28 0 ([] : List Person) = .error .zeroDivisionError := rfl

/-- C7 amended.  For every month, running the engine on an empty roster
fails with `ZeroDivisionError` (not a dedicated input-validation error);
the failure occurs while computing `base_quota`, before preassignment and
before any allocation, so no scheduling takes place. -/
theorem C7_amended (numDays fw : Nat) :
    run numDays fw [] = .error .zeroDivisionError := rfl

/-- C2 counterexample.  Bob has `needs_weekends = false` but is preassigned
to day 6 (a Saturday): the preassignment loop checks only for duplicate
dates, never weekend eligibility, so the final schedule maps the weekend
date 6 to Bob and the run completes without error. -/
theorem C2_counterexample :
    run 28 0 weekendPrePeople = .ok (runState (run 28 0 weekendPrePeople)) ∧
    isWeekendDay 0 6 = true ∧
    (∃ p ∈ weekendPrePeople, p.name = "Bob" ∧ p.needs_weekends = false) ∧
    (runState (run 28 0 weekendPrePeople)).schedule 6 = some "Bob" :=
  ⟨rfl, by decide, by decide, by decide⟩

/-- C3 counterexample.  Ann is preassigned to the adjacent days 1 and 2;
the preassignment loop raises only on *duplicate* dates, so the run
completes without any `ConflictError` and the final schedule maps both
adjacent days to Ann. -/
theorem C3_counterexample :
    run 28 0 adjacentPrePeople = .ok (runState (run 28 0 adjacentPrePeople)) ∧
    (runState (run 28 0 adjacentPrePeople)).schedule 1 = some "Ann" ∧
    (runState (run 28 0 adjacentPrePeople)).schedule 2 = some "Ann" :=
  ⟨rfl, by decide, by decide⟩

end GuardPlanner

/-! ## Membership and boolean facts -/

namespace GuardPlanner

theorem mem_dates {numDays : Nat} {d : Int} :
    d ∈ dates numDays ↔ 1 ≤ d ∧ d ≤ (numDays : Int) := by
  unfold dates
  constructor
  · intro h
    obtain ⟨i, hi, rfl⟩ := List.mem_map.mp h
    have := List.mem_range.mp hi
    constructor <;> simp <;> omega
  · rintro ⟨h1, h2⟩
    refine List.mem_map.mpr ⟨(d - 1).toNat, List.mem_range.mpr (by omega), ?_⟩
    simp only [Int.ofNat_eq_coe]
    omega

theorem mem_weekends {numDays fw : Nat} {d : Int} :
    d ∈ weekends numDays fw ↔ d ∈ dates numDays ∧ isWeekendDay fw d = true := by
  simp [weekends, List.mem_filter]

theorem mem_weekend_dates {numDays fw : Nat} {d : Int} :
    d ∈ weekend_dates numDays fw ↔ d ∈ dates numDays ∧ isWeekendDay fw d = true := by
  rw [weekend_dates, (pySorted_perm _ _).mem_iff]
  exact mem_weekends

theorem contains_iff_mem {l : List Int} {a : Int} : l.contains a = true ↔ a ∈ l := by
  simp

theorem weekends_contains_iff {numDays fw : Nat} {d : Int} :
    (weekends numDays fw).contains d = true ↔
      d ∈ dates numDays ∧ isWeekendDay fw d = true := by
  rw [contains_iff_mem]
  exact mem_weekends

theorem b2b_false {st : St} {n : String} {d : Int}
    (h : violates_back_to_back st n d = false) :
    st.schedule (d - 1) ≠ some n ∧ st.schedule (d + 1) ≠ some n := by
  unfold violates_back_to_back at h
  rw [Bool.or_eq_false_iff] at h
  constructor
  · intro he; rw [he] at h; simp at h
  · intro he; rw [he] at h; simp at h

theorem mem_weekendRelaxedCands {people : List Person} {st : St} {d : Int} {c : Person}
    (h : c ∈ weekendRelaxedCands people st d) :
    c ∈ weekend_people people ∧ violates_back_to_back st c.name d = false := by
  rw [weekendRelaxedCands, List.mem_filter] at h
  obtain ⟨h1, h2⟩ := h
  rw [Bool.and_eq_true] at h2
  exact ⟨h1, by simpa using h2.2⟩

theorem weekendStrict_sub_relaxed {people : List Person} {st : St} {d : Int} {c : Person}
    (h : c ∈ weekendStrictCands people st d) : c ∈ weekendRelaxedCands people st d := by
  rw [weekendStrictCands, List.mem_filter] at h
  rw [weekendRelaxedCands, List.mem_filter]
  obtain ⟨h1, h2⟩ := h
  rw [Bool.and_eq_true, Bool.and_eq_true] at h2
  exact ⟨h1, by rw [Bool.and_eq_true]; exact h2.1⟩

theorem mem_weekdayRelaxedCands {numDays fw : Nat} {people : List Person} {st : St}
    {d : Int} {c : Person} (h : c ∈ weekdayRelaxedCands numDays fw people st d) :
    c ∈ people ∧ violates_back_to_back st c.name d = false ∧
      ((weekends numDays fw).contains d = true → c.needs_weekends = true) := by
  rw [weekdayRelaxedCands, List.mem_filter] at h
  obtain ⟨h1, h2⟩ := h
  rw [Bool.and_eq_true, Bool.and_eq_true, Bool.and_eq_true] at h2
  refine ⟨h1, by simpa using h2.2, ?_⟩
  intro hw
  have hC := h2.1.2
  rw [hw] at hC
  simpa using hC

theorem weekdayStrict_sub_relaxed {numDays fw : Nat} {people : List Person}
    {tc : String → Nat} {st : St} {d : Int} {c : Person}
    (h : c ∈ weekdayStrictCands numDays fw people tc st d) :
    c ∈ weekdayRelaxedCands numDays fw people st d := by
  rw [weekdayStrictCands, List.mem_filter] at h
  rw [weekdayRelaxedCands, List.mem_filter]
  obtain ⟨h1, h2⟩ := h
  rw [Bool.and_eq_true] at h2
  exact ⟨h1, h2.1⟩

end GuardPlanner

/-! ## Step characterizations

Each allocation step either leaves the state unchanged or commits exactly
one assignment whose shape is recorded below. -/

namespace GuardPlanner

theorem weekendStep_cases (people : List Person) (st : St) (date : Int) :
    weekendStep people st date = st ∨
    ∃ c, c ∈ weekendRelaxedCands people st date ∧
      weekendStep people st date =
        { st with
          schedule := fupd st.schedule date (some c.name)
          weekend_counts := fupd st.weekend_counts c.name (st.weekend_counts c.name + 1)
          assigned_counts := fupd st.assigned_counts c.name (st.assigned_counts c.name + 1)
          last_assigned := fupd st.last_assigned c.name (some date) } := by
  by_cases hpre : date ∈ st.preassigned_set
  · left; simp [weekendStep, hpre]
  · cases hE : (weekendStrictCands people st date).isEmpty with
    | true =>
      cases hs : pySorted (fun a b => lexLe (weekendKey st date a) (weekendKey st date b))
          (weekendRelaxedCands people st date) with
      | nil => left; simp [weekendStep, hpre, hE, hs]
      | cons c rest =>
        right
        exact ⟨c, mem_of_pySorted_head hs, by simp [weekendStep, hpre, hE, hs]⟩
    | false =>
      cases hs : pySorted (fun a b => lexLe (weekendKey st date a) (weekendKey st date b))
          (weekendStrictCands people st date) with
      | nil => left; simp [weekendStep, hpre, hE, hs]
      | cons c rest =>
        right
        exact ⟨c, weekendStrict_sub_relaxed (mem_of_pySorted_head hs),
          by simp [weekendStep, hpre, hE, hs]⟩

theorem weekdayStep_cases (numDays fw : Nat) (people : List Person)
    (tc : String → Nat) (st : St) (date : Int) :
    weekdayStep numDays fw people tc st date = st ∨
    ((st.schedule date) = none ∧
      weekdayStep numDays fw people tc st date =
        { st with schedule := fupd st.schedule date (some UNASSIGNED) }) ∨
    ∃ c, c ∈ weekdayRelaxedCands numDays fw people st date ∧
      weekdayStep numDays fw people tc st date =
        { st with
          schedule := fupd st.schedule date (some c.name)
          assigned_counts := fupd st.assigned_counts c.name (st.assigned_counts c.name + 1)
          last_assigned := fupd st.last_assigned c.name (some date)
          weekend_counts :=
            if (weekends numDays fw).contains date then
              fupd st.weekend_counts c.name (st.weekend_counts c.name + 1)
            else st.weekend_counts } := by
  cases hS : st.schedule date with
  | some s => left; simp [weekdayStep, hS]
  | none =>
    cases hE : (weekdayStrictCands numDays fw people tc st date).isEmpty with
    | true =>
      cases hs : pySorted (fun a b => lexLe (weekdayKey st date a) (weekdayKey st date b))
          (weekdayRelaxedCands numDays fw people st date) with
      | nil =>
        right; left
        exact ⟨rfl, by simp [weekdayStep, hS, hE, hs]⟩
      | cons c rest =>
        right; right
        exact ⟨c, mem_of_pySorted_head hs, by simp [weekdayStep, hS, hE, hs]⟩
    | false =>
      cases hs : pySorted (fun a b => lexLe (weekdayKey st date a) (weekdayKey st date b))
          (weekdayStrictCands numDays fw people tc st date) with
      | nil =>
        right; left
        exact ⟨rfl, by simp [weekdayStep, hS, hE, hs]⟩
      | cons c rest =>
        right; right
        exact ⟨c, weekdayStrict_sub_relaxed (mem_of_pySorted_head hs),
          by simp [weekdayStep, hS, hE, hs]⟩

theorem repairScan_cases (st : St) (p : Person) :
    ∀ ds : List Int,
      repairScan st p ds = st ∨
      ∃ d, d ∈ ds ∧ d ∉ st.preassigned_set ∧
        violates_back_to_back st p.name d = false ∧
        ¬ p.unavailable_dates.contains d ∧
        ((st.schedule d = some UNASSIGNED ∧
          repairScan st p ds =
            { st with
              schedule := fupd st.schedule d (some p.name)
              weekend_counts := fupd st.weekend_counts p.name (st.weekend_counts p.name + 1)
              assigned_counts := fupd st.assigned_counts p.name (st.assigned_counts p.name + 1)
              last_assigned := fupd st.last_assigned p.name (some d) }) ∨
        (∃ old, st.schedule d = some old ∧ old ≠ p.name ∧
          3 ≤ st.weekend_counts old ∧
          repairScan st p ds =
            { st with
              schedule := fupd st.schedule d (some p.name)
              weekend_counts :=
                fupd (fupd st.weekend_counts p.name (st.weekend_counts p.name + 1)) old
                  (st.weekend_counts old - 1)
              assigned_counts :=
                fupd (fupd st.assigned_counts p.name (st.assigned_counts p.name + 1)) old
                  (st.assigned_counts old - 1)
              last_assigned := fupd st.last_assigned p.name (some d) })) := by
  intro ds
  induction ds with
  | nil => left; rfl
  | cons d rest ih =>
    by_cases hpre : d ∈ st.preassigned_set
    · rw [show repairScan st p (d :: rest) = repairScan st p rest by
        simp only [repairScan]
        rw [if_pos hpre]]
      rcases ih with h | ⟨d', hd', hrest⟩
      · exact Or.inl h
      · exact Or.inr ⟨d', List.mem_cons_of_mem d hd', hrest⟩
    · cases hU : st.schedule d == some UNASSIGNED with
      | true =>
        have hUs : st.schedule d = some UNASSIGNED := beq_iff_eq.mp hU
        cases hguard : (!(p.unavailable_dates.contains d)
            && !(violates_back_to_back st p.name d)) with
        | true =>
          right
          have hg := hguard
          rw [Bool.and_eq_true] at hg
          refine ⟨d, List.mem_cons_self _ _, hpre, by simpa using hg.2,
            by simpa using hg.1, Or.inl ⟨hUs, ?_⟩⟩
          simp only [repairScan]
          rw [if_neg hpre, if_pos hU, if_pos hguard]
        | false =>
          rw [show repairScan st p (d :: rest) = repairScan st p rest by
            simp only [repairScan]
            rw [if_neg hpre, if_pos hU,
              if_neg (by rw [hguard]; exact Bool.false_ne_true)]]
          rcases ih with h | ⟨d', hd', hrest⟩
          · exact Or.inl h
          · exact Or.inr ⟨d', List.mem_cons_of_mem d hd', hrest⟩
      | false =>
        cases hS : st.schedule d with
        | none =>
          rw [show repairScan st p (d :: rest) = repairScan st p rest by
            simp only [repairScan]
            rw [if_neg hpre, if_neg (by rw [hU]; exact Bool.false_ne_true)]
            simp only [hS]]
          rcases ih with h | ⟨d', hd', hrest⟩
          · exact Or.inl h
          · exact Or.inr ⟨d', List.mem_cons_of_mem d hd', hrest⟩
        | some old =>
          have hU' : ¬ ((st.schedule d == some UNASSIGNED) = true) := by
            rw [hU]; exact Bool.false_ne_true
          cases hguard : (old != p.name && 3 ≤ st.weekend_counts old
              && !(p.unavailable_dates.contains d)
              && !(violates_back_to_back st p.name d)) with
          | true =>
            right
            have hg := hguard
            rw [Bool.and_eq_true, Bool.and_eq_true, Bool.and_eq_true] at hg
            refine ⟨d, List.mem_cons_self _ _, hpre, by simpa using hg.2,
              by simpa using hg.1.2,
              Or.inr ⟨old, hS, by simpa using hg.1.1.1,
                by simpa using hg.1.1.2, ?_⟩⟩
            simp only [repairScan]
            rw [if_neg hpre, if_neg hU']
            simp only [hS]
            rw [if_pos hguard]
          | false =>
            rw [show repairScan st p (d :: rest) = repairScan st p rest by
              simp only [repairScan]
              rw [if_neg hpre, if_neg hU']
              simp only [hS]
              rw [if_neg (by rw [hguard]; exact Bool.false_ne_true)]]
            rcases ih with h | ⟨d', hd', hrest⟩
            · exact Or.inl h
            · exact Or.inr ⟨d', List.mem_cons_of_mem d hd', hrest⟩

theorem preassignDate_ok_cases {numDays fw : Nat} {p : Person} {st st' : St} {d : Int}
    (h : preassignDate numDays fw p st d = .ok st') :
    (st' = st ∧ (d < 1 ∨ (numDays : Int) < d)) ∨
    (¬(d < 1 ∨ (numDays : Int) < d) ∧ st.schedule d = none ∧
      st' = { st with
        schedule := fupd st.schedule d (some p.name)
        preassigned_set := d :: st.preassigned_set
        assigned_counts := fupd st.assigned_counts p.name (st.assigned_counts p.name + 1)
        last_assigned := fupd st.last_assigned p.name (some d)
        weekend_counts :=
          if isWeekendDay fw d then
            fupd st.weekend_counts p.name (st.weekend_counts p.name + 1)
          else st.weekend_counts }) := by
  unfold preassignDate at h
  cases hm : (d < 1 || (numDays : Int) < d) with
  | true =>
    rw [hm] at h
    simp only [if_pos rfl] at h
    left
    refine ⟨?_, by simpa using hm⟩
    cases h; rfl
  | false =>
    rw [hm] at h
    simp only [Bool.false_eq_true, if_false] at h
    cases hS : (st.schedule d).isSome with
    | true => rw [hS] at h; simp at h
    | false =>
      rw [hS] at h
      simp only [Bool.false_eq_true, if_false] at h
      right
      refine ⟨by simpa using hm, Option.not_isSome_iff_eq_none.mp (by simp [hS]), ?_⟩
      cases h; rfl

theorem preassignDate_error_cases {numDays fw : Nat} {p : Person} {st : St} {d : Int}
    {e : Err} (h : preassignDate numDays fw p st d = .error e) :
    e = .conflictError d ∧ ¬(d < 1 ∨ (numDays : Int) < d) ∧ (st.schedule d).isSome := by
  unfold preassignDate at h
  cases hm : (d < 1 || (numDays : Int) < d) with
  | true =>
    rw [hm] at h
    simp only [if_pos rfl] at h
    exact Except.noConfusion h
  | false =>
    rw [hm] at h
    simp only [Bool.false_eq_true, if_false] at h
    cases hS : (st.schedule d).isSome with
    | true =>
      rw [hS] at h
      simp only [if_pos rfl] at h
      have h' : Except.error (Err.conflictError d) = Except.error e := h
      injection h' with h2
      exact ⟨h2.symm, by simpa using hm, rfl⟩
    | false =>
      rw [hS] at h
      simp only [Bool.false_eq_true, if_false] at h
      exact Except.noConfusion h

end GuardPlanner

/-! ## Run decomposition and preassignment origins -/

namespace GuardPlanner

theorem run_ok_decompose {numDays fw : Nat} {people : List Person} {st : St}
    (h : run numDays fw people = .ok st) :
    ∃ st₁, preassignAll numDays fw people = .ok st₁ ∧
      st = repairPhase numDays fw people
        (weekdayPhase numDays fw people (weekendPhase numDays fw people st₁)) := by
  unfold run at h
  cases hE : people.isEmpty with
  | true =>
    rw [hE] at h
    simp only [if_pos rfl] at h
    exact Except.noConfusion h
  | false =>
    rw [hE] at h
    simp only [Bool.false_eq_true, if_false] at h
    cases hP : preassignAll numDays fw people with
    | error e =>
      rw [hP, except_bind_error] at h
      exact Except.noConfusion h
    | ok st₁ =>
      rw [hP, except_bind_ok] at h
      have h' : Except.ok (repairPhase numDays fw people
          (weekdayPhase numDays fw people (weekendPhase numDays fw people st₁))) =
          Except.ok st := h
      injection h' with h2
      exact ⟨st₁, rfl, h2.symm⟩

/-- Every schedule entry after the preassignment phase comes from some
person's preassigned date. -/
theorem preassignAll_ok_origin {numDays fw : Nat} {people : List Person} {st : St}
    (h : preassignAll numDays fw people = .ok st) :
    ∀ d n, st.schedule d = some n →
      ∃ q ∈ people, q.name = n ∧ d ∈ q.preassigned_dates := by
  refine @foldlM_ok_inv St Person (preassignPerson numDays fw)
    (fun s => ∀ d n, s.schedule d = some n →
      ∃ q ∈ people, q.name = n ∧ d ∈ q.preassigned_dates)
    people St.init st h ?_ ?_
  · intro x p x' hp hstep hx
    refine @foldlM_ok_inv St Int (preassignDate numDays fw p)
      (fun s => ∀ d n, s.schedule d = some n →
        ∃ q ∈ people, q.name = n ∧ d ∈ q.preassigned_dates)
      p.preassigned_dates x x' hstep ?_ hx
    intro y dd y' hdd hdate hy d n hs
    rcases preassignDate_ok_cases hdate with ⟨rfl, _⟩ | ⟨_, _, rfl⟩
    · exact hy d n hs
    · have hs' : fupd y.schedule dd (some p.name) d = some n := hs
      by_cases hd : d = dd
      · subst hd
        rw [fupd_same] at hs'
        injection hs' with hname
        exact ⟨p, hp, hname, hdd⟩
      · rw [fupd_other _ _ hd] at hs'
        exact hy d n hs'
  · intro d n hs
    exact Option.noConfusion hs

end GuardPlanner

/-! ## Claim C2: weekend exclusivity -/

namespace GuardPlanner

/-- C2 amended.  In every completed run, a person with
`needs_weekends = false` is mapped to a weekend date only if that date was
one of their own preassigned dates: the weekend allocator, the weekday
allocator (both passes) and the repair pass never hand a weekend date to a
non-weekend-eligible person; only the preassignment loader can (it performs
no weekend-eligibility check).  Roster hypotheses: names are unique and no
person is named UNASSIGNED. -/
theorem C2_amended {numDays fw : Nat} {people : List Person} {st : St}
    (hnd : (people.map Person.name).Nodup)
    (hU : ∀ p ∈ people, p.name ≠ UNASSIGNED)
    (hrun : run numDays fw people = .ok st) :
    ∀ d q, isWeekendDay fw d = true → q ∈ people → st.schedule d = some q.name →
      q.needs_weekends = false → d ∈ q.preassigned_dates := by
  obtain ⟨st₁, hP, hst⟩ := run_ok_decompose hrun
  have ninj : ∀ q1, q1 ∈ people → ∀ q2, q2 ∈ people → q1.name = q2.name → q1 = q2 :=
    fun q1 h1 q2 h2 he => List.inj_on_of_nodup_map hnd h1 h2 he
  have inv1 : ∀ d q, isWeekendDay fw d = true → q ∈ people →
      st₁.schedule d = some q.name → q.needs_weekends = false →
      d ∈ q.preassigned_dates := by
    intro d q _ hq hs _
    obtain ⟨q', hq', hname, hd⟩ := preassignAll_ok_origin hP d q.name hs
    rw [ninj q' hq' q hq hname]  at hd
    exact hd
  have inv2 : ∀ d q, isWeekendDay fw d = true → q ∈ people →
      (weekendPhase numDays fw people st₁).schedule d = some q.name →
      q.needs_weekends = false → d ∈ q.preassigned_dates := by
    refine @foldl_inv St Int (weekendStep people)
      (fun s => ∀ d q, isWeekendDay fw d = true → q ∈ people →
        s.schedule d = some q.name → q.needs_weekends = false →
        d ∈ q.preassigned_dates)
      (weekend_dates numDays fw) st₁ ?_ inv1
    intro x a _ hx d q hw hq hs hnw
    rcases weekendStep_cases people x a with heq | ⟨c, hc, heq⟩
    · rw [heq] at hs; exact hx d q hw hq hs hnw
    · rw [heq] at hs
      have hs' : fupd x.schedule a (some c.name) d = some q.name := hs
      by_cases hd : d = a
      · subst hd
        rw [fupd_same] at hs'
        injection hs' with hname
        obtain ⟨hcw, _⟩ := mem_weekendRelaxedCands hc
        obtain ⟨hcppl, hcnw⟩ := mem_weekend_people.mp hcw
        rw [ninj q hq c hcppl hname.symm] at hnw
        rw [hnw] at hcnw
        exact Bool.noConfusion hcnw
      · rw [fupd_other _ _ hd] at hs'
        exact hx d q hw hq hs' hnw
  have inv3 : ∀ d q, isWeekendDay fw d = true → q ∈ people →
      (weekdayPhase numDays fw people (weekendPhase numDays fw people st₁)).schedule d =
        some q.name →
      q.needs_weekends = false → d ∈ q.preassigned_dates := by
    refine @foldl_inv St Int
      (weekdayStep numDays fw people (target_counts numDays people))
      (fun s => ∀ d q, isWeekendDay fw d = true → q ∈ people →
        s.schedule d = some q.name → q.needs_weekends = false →
        d ∈ q.preassigned_dates)
      (dates numDays) (weekendPhase numDays fw people st₁) ?_ inv2
    intro x a ha hx d q hw hq hs hnw
    rcases weekdayStep_cases numDays fw people (target_counts numDays people) x a with
      heq | ⟨hnone, heq⟩ | ⟨c, hc, heq⟩
    · rw [heq] at hs; exact hx d q hw hq hs hnw
    · rw [heq] at hs
      have hs' : fupd x.schedule a (some UNASSIGNED) d = some q.name := hs
      by_cases hd : d = a
      · subst hd
        rw [fupd_same] at hs'
        injection hs' with hname
        exact absurd hname.symm (hU q hq)
      · rw [fupd_other _ _ hd] at hs'
        exact hx d q hw hq hs' hnw
    · rw [heq] at hs
      have hs' : fupd x.schedule a (some c.name) d = some q.name := hs
      by_cases hd : d = a
      · subst hd
        rw [fupd_same] at hs'
        injection hs' with hname
        obtain ⟨hcppl, _, hwknd⟩ := mem_weekdayRelaxedCands hc
        have hcnw : c.needs_weekends = true :=
          hwknd (weekends_contains_iff.mpr ⟨ha, hw⟩)
        rw [ninj q hq c hcppl hname.symm] at hnw
        rw [hnw] at hcnw
        exact Bool.noConfusion hcnw
      · rw [fupd_other _ _ hd] at hs'
        exact hx d q hw hq hs' hnw
  have inv4 : ∀ d q, isWeekendDay fw d = true → q ∈ people →
      (repairPhase numDays fw people
        (weekdayPhase numDays fw people (weekendPhase numDays fw people st₁))).schedule d =
        some q.name →
      q.needs_weekends = false → d ∈ q.preassigned_dates := by
    refine @foldl_inv St Person
      (fun x p => repairScan x p (weekend_dates numDays fw))
      (fun s => ∀ d q, isWeekendDay fw d = true → q ∈ people →
        s.schedule d = some q.name → q.needs_weekends = false →
        d ∈ q.preassigned_dates)
      ((weekend_people people).filter (fun p =>
        (weekdayPhase numDays fw people
          (weekendPhase numDays fw people st₁)).weekend_counts p.name == 1))
      (weekdayPhase numDays fw people (weekendPhase numDays fw people st₁)) ?_ inv3
    intro x p hp hx d q hw hq hs hnw
    have hs' : (repairScan x p (weekend_dates numDays fw)).schedule d = some q.name := hs
    have hpw : p ∈ weekend_people people := List.mem_of_mem_filter hp
    obtain ⟨hpppl, hpnw⟩ := mem_weekend_people.mp hpw
    rcases repairScan_cases x p (weekend_dates numDays fw) with heq |
      ⟨dd, _, _, _, _, hcase⟩
    · rw [heq] at hs'; exact hx d q hw hq hs' hnw
    · have heq : (repairScan x p (weekend_dates numDays fw)).schedule =
          fupd x.schedule dd (some p.name) := by
        rcases hcase with ⟨_, heq⟩ | ⟨old, _, _, _, heq⟩ <;> rw [heq]
      rw [heq] at hs'
      by_cases hd : d = dd
      · subst hd
        rw [fupd_same] at hs'
        injection hs' with hname
        rw [ninj q hq p hpppl hname.symm] at hnw
        rw [hnw] at hpnw
        exact Bool.noConfusion hpnw
      · rw [fupd_other _ _ hd] at hs'
        exact hx d q hw hq hs' hnw
  rw [hst]
  exact inv4

set_option maxRecDepth 40000

/-- Witness for `C2_amended`: in the concrete preassignment run of
`C2_counterexample`'s roster, the hypothesis chain is satisfiable and the
weekend date 6 held by Bob is indeed one of Bob's preassigned dates. -/
theorem C2_amended_witness :
    6 ∈ (⟨"Bob", false, [], 0, [6]⟩ : Person).preassigned_dates :=
  @C2_amended 28 0 weekendPrePeople (runState (run 28 0 weekendPrePeople))
    (by decide) (by decide) rfl
    6 ⟨"Bob", false, [], 0, [6]⟩ (by decide) (by decide) (by decide) rfl

end GuardPlanner

/-! ## Claim C3: no double-booking outside preassignments -/

namespace GuardPlanner

set_option maxRecDepth 40000

theorem adj_write_preserve {people : List Person} {s : Int → Option String}
    {a : Int} {n : String}
    (hinv : ∀ d q, q ∈ people → s d = some q.name → s (d + 1) = some q.name →
      d ∈ q.preassigned_dates ∧ d + 1 ∈ q.preassigned_dates)
    (hprev : s (a - 1) ≠ some n) (hnext : s (a + 1) ≠ some n) :
    ∀ d q, q ∈ people → fupd s a (some n) d = some q.name →
      fupd s a (some n) (d + 1) = some q.name →
      d ∈ q.preassigned_dates ∧ d + 1 ∈ q.preassigned_dates := by
  intro d q hq h1 h2
  by_cases hda : d = a
  · subst hda
    rw [fupd_same] at h1
    have hne : d + 1 ≠ d := by omega
    rw [fupd_other _ _ hne] at h2
    injection h1 with hn1
    rw [← hn1] at h2
    exact absurd h2 hnext
  · by_cases h1a : d + 1 = a
    · rw [fupd_other _ _ hda] at h1
      rw [h1a, fupd_same] at h2
      injection h2 with hn2
      have hd : d = a - 1 := by omega
      rw [← hn2, hd] at h1
      exact absurd h1 hprev
    · rw [fupd_other _ _ hda] at h1
      rw [fupd_other _ _ h1a] at h2
      exact hinv d q hq h1 h2

theorem adj_write_unassigned {people : List Person} {s : Int → Option String} {a : Int}
    (hU : ∀ p ∈ people, p.name ≠ UNASSIGNED)
    (hinv : ∀ d q, q ∈ people → s d = some q.name → s (d + 1) = some q.name →
      d ∈ q.preassigned_dates ∧ d + 1 ∈ q.preassigned_dates) :
    ∀ d q, q ∈ people → fupd s a (some UNASSIGNED) d = some q.name →
      fupd s a (some UNASSIGNED) (d + 1) = some q.name →
      d ∈ q.preassigned_dates ∧ d + 1 ∈ q.preassigned_dates := by
  intro d q hq h1 h2
  by_cases hda : d = a
  · subst hda
    rw [fupd_same] at h1
    injection h1 with hn1
    exact absurd hn1.symm (hU q hq)
  · by_cases h1a : d + 1 = a
    · rw [h1a, fupd_same] at h2
      injection h2 with hn2
      exact absurd hn2.symm (hU q hq)
    · rw [fupd_other _ _ hda] at h1
      rw [fupd_other _ _ h1a] at h2
      exact hinv d q hq h1 h2

/-- C3 amended.  In every completed run, whenever the same roster member
holds two calendar-adjacent dates, both dates were that member's own
preassigned dates: every assignment made by the weekend, weekday and repair
passes is guarded by the bidirectional `violates_back_to_back` check, and
the preassignment loop — which performs no adjacency check and raises no
error for adjacent preassignments — is the only way to create such a pair.
Roster hypotheses: names are unique and no person is named UNASSIGNED. -/
theorem C3_amended {numDays fw : Nat} {people : List Person} {st : St}
    (hnd : (people.map Person.name).Nodup)
    (hU : ∀ p ∈ people, p.name ≠ UNASSIGNED)
    (hrun : run numDays fw people = .ok st) :
    ∀ d q, q ∈ people → st.schedule d = some q.name →
      st.schedule (d + 1) = some q.name →
      d ∈ q.preassigned_dates ∧ d + 1 ∈ q.preassigned_dates := by
  obtain ⟨st₁, hP, hst⟩ := run_ok_decompose hrun
  have ninj : ∀ q1, q1 ∈ people → ∀ q2, q2 ∈ people → q1.name = q2.name → q1 = q2 :=
    fun q1 h1 q2 h2 he => List.inj_on_of_nodup_map hnd h1 h2 he
  have inv1 : ∀ d q, q ∈ people → st₁.schedule d = some q.name →
      st₁.schedule (d + 1) = some q.name →
      d ∈ q.preassigned_dates ∧ d + 1 ∈ q.preassigned_dates := by
    intro d q hq h1 h2
    obtain ⟨q1, hq1, hn1, hd1⟩ := preassignAll_ok_origin hP d q.name h1
    obtain ⟨q2, hq2, hn2, hd2⟩ := preassignAll_ok_origin hP (d + 1) q.name h2
    rw [ninj q1 hq1 q hq hn1] at hd1
    rw [ninj q2 hq2 q hq hn2] at hd2
    exact ⟨hd1, hd2⟩
  have inv2 : ∀ d q, q ∈ people →
      (weekendPhase numDays fw people st₁).schedule d = some q.name →
      (weekendPhase numDays fw people st₁).schedule (d + 1) = some q.name →
      d ∈ q.preassigned_dates ∧ d + 1 ∈ q.preassigned_dates := by
    refine @foldl_inv St Int (weekendStep people)
      (fun s => ∀ d q, q ∈ people → s.schedule d = some q.name →
        s.schedule (d + 1) = some q.name →
        d ∈ q.preassigned_dates ∧ d + 1 ∈ q.preassigned_dates)
      (weekend_dates numDays fw) st₁ ?_ inv1
    intro x a _ hx d q hq h1 h2
    rcases weekendStep_cases people x a with heq | ⟨c, hc, heq⟩
    · rw [heq] at h1 h2; exact hx d q hq h1 h2
    · rw [heq] at h1 h2
      obtain ⟨_, hb2b⟩ := mem_weekendRelaxedCands hc
      obtain ⟨hprev, hnext⟩ := b2b_false hb2b
      exact adj_write_preserve hx hprev hnext d q hq h1 h2
  have inv3 : ∀ d q, q ∈ people →
      (weekdayPhase numDays fw people (weekendPhase numDays fw people st₁)).schedule d =
        some q.name →
      (weekdayPhase numDays fw people (weekendPhase numDays fw people st₁)).schedule
        (d + 1) = some q.name →
      d ∈ q.preassigned_dates ∧ d + 1 ∈ q.preassigned_dates := by
    refine @foldl_inv St Int
      (weekdayStep numDays fw people (target_counts numDays people))
      (fun s => ∀ d q, q ∈ people → s.schedule d = some q.name →
        s.schedule (d + 1) = some q.name →
        d ∈ q.preassigned_dates ∧ d + 1 ∈ q.preassigned_dates)
      (dates numDays) (weekendPhase numDays fw people st₁) ?_ inv2
    intro x a _ hx d q hq h1 h2
    rcases weekdayStep_cases numDays fw people (target_counts numDays people) x a with
      heq | ⟨hnone, heq⟩ | ⟨c, hc, heq⟩
    · rw [heq] at h1 h2; exact hx d q hq h1 h2
    · rw [heq] at h1 h2
      exact adj_write_unassigned hU hx d q hq h1 h2
    · rw [heq] at h1 h2
      obtain ⟨_, hb2b, _⟩ := mem_weekdayRelaxedCands hc
      obtain ⟨hprev, hnext⟩ := b2b_false hb2b
      exact adj_write_preserve hx hprev hnext d q hq h1 h2
  have inv4 : ∀ d q, q ∈ people →
      (repairPhase numDays fw people
        (weekdayPhase numDays fw people (weekendPhase numDays fw people st₁))).schedule d =
        some q.name →
      (repairPhase numDays fw people
        (weekdayPhase numDays fw people (weekendPhase numDays fw people st₁))).schedule
        (d + 1) = some q.name →
      d ∈ q.preassigned_dates ∧ d + 1 ∈ q.preassigned_dates := by
    refine @foldl_inv St Person
      (fun x p => repairScan x p (weekend_dates numDays fw))
      (fun s => ∀ d q, q ∈ people → s.schedule d = some q.name →
        s.schedule (d + 1) = some q.name →
        d ∈ q.preassigned_dates ∧ d + 1 ∈ q.preassigned_dates)
      ((weekend_people people).filter (fun p =>
        (weekdayPhase numDays fw people
          (weekendPhase numDays fw people st₁)).weekend_counts p.name == 1))
      (weekdayPhase numDays fw people (weekendPhase numDays fw people st₁)) ?_ inv3
    intro x p _ hx d q hq h1 h2
    have h1' : (repairScan x p (weekend_dates numDays fw)).schedule d = some q.name := h1
    have h2' : (repairScan x p (weekend_dates numDays fw)).schedule (d + 1) =
        some q.name := h2
    rcases repairScan_cases x p (weekend_dates numDays fw) with heq |
      ⟨dd, _, _, hb2b, _, hcase⟩
    · rw [heq] at h1' h2'; exact hx d q hq h1' h2'
    · have heq : (repairScan x p (weekend_dates numDays fw)).schedule =
          fupd x.schedule dd (some p.name) := by
        rcases hcase with ⟨_, heq⟩ | ⟨old, _, _, _, heq⟩ <;> rw [heq]
      rw [heq] at h1' h2'
      obtain ⟨hprev, hnext⟩ := b2b_false hb2b
      exact adj_write_preserve hx hprev hnext d q hq h1' h2'
  rw [hst]
  exact inv4

/-- Witness for `C3_amended`: in the concrete run with Ann preassigned to
days 1 and 2, the adjacent pair held by Ann consists of two of Ann's own
preassigned dates. -/
theorem C3_amended_witness :
    1 ∈ (⟨"Ann", false, [], 0, [1, 2]⟩ : Person).preassigned_dates ∧
    (1 : Int) + 1 ∈ (⟨"Ann", false, [], 0, [1, 2]⟩ : Person).preassigned_dates :=
  @C3_amended 28 0 adjacentPrePeople (runState (run 28 0 adjacentPrePeople))
    (by decide) (by decide) rfl
    1 ⟨"Ann", false, [], 0, [1, 2]⟩ (by decide) (by decide) (by decide)

end GuardPlanner

/-! ## Claim C5: total coverage and the UNASSIGNED condition -/

namespace GuardPlanner

set_option maxRecDepth 40000

theorem fupd_some_isSome {s : Int → Option String} {a d : Int} {n : String}
    (h : (s d).isSome) : ((fupd s a (some n)) d).isSome := by
  by_cases hd : d = a
  · subst hd; rw [fupd_same]; rfl
  · rw [fupd_other _ _ hd]; exact h

theorem weekdayStep_covers (numDays fw : Nat) (people : List Person)
    (tc : String → Nat) (x : St) (date : Int) :
    ((weekdayStep numDays fw people tc x date).schedule date).isSome := by
  cases hS : x.schedule date with
  | some s =>
    have hx : weekdayStep numDays fw people tc x date = x := by
      simp [weekdayStep, hS]
    rw [hx, hS]
    rfl
  | none =>
    cases hE : (weekdayStrictCands numDays fw people tc x date).isEmpty with
    | true =>
      cases hsorted : pySorted (fun a b => lexLe (weekdayKey x date a) (weekdayKey x date b))
          (weekdayRelaxedCands numDays fw people x date) with
      | nil =>
        have hx : (weekdayStep numDays fw people tc x date).schedule =
            fupd x.schedule date (some UNASSIGNED) := by
          simp [weekdayStep, hS, hE, hsorted]
        rw [hx]
        show (fupd x.schedule date (some UNASSIGNED) date).isSome
        rw [fupd_same]
        rfl
      | cons c rest =>
        have hx : (weekdayStep numDays fw people tc x date).schedule =
            fupd x.schedule date (some c.name) := by
          simp [weekdayStep, hS, hE, hsorted]
        rw [hx]
        show (fupd x.schedule date (some c.name) date).isSome
        rw [fupd_same]
        rfl
    | false =>
      cases hsorted : pySorted (fun a b => lexLe (weekdayKey x date a) (weekdayKey x date b))
          (weekdayStrictCands numDays fw people tc x date) with
      | nil =>
        have hx : (weekdayStep numDays fw people tc x date).schedule =
            fupd x.schedule date (some UNASSIGNED) := by
          simp [weekdayStep, hS, hE, hsorted]
        rw [hx]
        show (fupd x.schedule date (some UNASSIGNED) date).isSome
        rw [fupd_same]
        rfl
      | cons c rest =>
        have hx : (weekdayStep numDays fw people tc x date).schedule =
            fupd x.schedule date (some c.name) := by
          simp [weekdayStep, hS, hE, hsorted]
        rw [hx]
        show (fupd x.schedule date (some c.name) date).isSome
        rw [fupd_same]
        rfl

/-- C5.  (a) In every completed run, every date of the target month is a key
of the final schedule, mapped to the sentinel UNASSIGNED or to a roster
name (the schedule is a finite map, so each date occurs exactly once as a
key).  (b) The weekday step writes UNASSIGNED at the date it processes only
when both the strict and the relaxed candidate lists for that date are
empty in the state it sees. -/
theorem C5_total_coverage {numDays fw : Nat} {people : List Person} {st : St}
    (hU : ∀ p ∈ people, p.name ≠ UNASSIGNED)
    (hrun : run numDays fw people = .ok st) :
    (∀ d ∈ dates numDays, ∃ n, st.schedule d = some n ∧
        (n = UNASSIGNED ∨ n ∈ people.map Person.name)) ∧
    (∀ (x : St) (d : Int),
        (weekdayStep numDays fw people (target_counts numDays people) x d).schedule d =
          some UNASSIGNED →
        x.schedule d = some UNASSIGNED ∨
          (weekdayStrictCands numDays fw people (target_counts numDays people) x d = [] ∧
            weekdayRelaxedCands numDays fw people x d = [])) := by
  obtain ⟨st₁, hP, hst⟩ := run_ok_decompose hrun
  constructor
  · -- (a) coverage with values in names ∪ {UNASSIGNED}
    -- value invariant through all phases
    have val1 : ∀ d n, st₁.schedule d = some n →
        (n = UNASSIGNED ∨ n ∈ people.map Person.name) := by
      intro d n hs
      obtain ⟨q, hq, hname, _⟩ := preassignAll_ok_origin hP d n hs
      exact Or.inr (hname ▸ List.mem_map_of_mem Person.name hq)
    have val2 : ∀ d n,
        (weekendPhase numDays fw people st₁).schedule d = some n →
        (n = UNASSIGNED ∨ n ∈ people.map Person.name) := by
      refine @foldl_inv St Int (weekendStep people)
        (fun s => ∀ d n, s.schedule d = some n →
          (n = UNASSIGNED ∨ n ∈ people.map Person.name))
        (weekend_dates numDays fw) st₁ ?_ val1
      intro x a _ hx d n hs
      rcases weekendStep_cases people x a with heq | ⟨c, hc, heq⟩
      · rw [heq] at hs; exact hx d n hs
      · rw [heq] at hs
        have hs' : fupd x.schedule a (some c.name) d = some n := hs
        by_cases hd : d = a
        · subst hd
          rw [fupd_same] at hs'
          injection hs' with hname
          have : c ∈ people := (mem_weekend_people.mp (mem_weekendRelaxedCands hc).1).1
          exact Or.inr (hname ▸ List.mem_map_of_mem Person.name this)
        · rw [fupd_other _ _ hd] at hs'
          exact hx d n hs'
    have val3 : ∀ d n,
        (weekdayPhase numDays fw people (weekendPhase numDays fw people st₁)).schedule d =
          some n → (n = UNASSIGNED ∨ n ∈ people.map Person.name) := by
      refine @foldl_inv St Int
        (weekdayStep numDays fw people (target_counts numDays people))
        (fun s => ∀ d n, s.schedule d = some n →
          (n = UNASSIGNED ∨ n ∈ people.map Person.name))
        (dates numDays) (weekendPhase numDays fw people st₁) ?_ val2
      intro x a _ hx d n hs
      rcases weekdayStep_cases numDays fw people (target_counts numDays people) x a with
        heq | ⟨_, heq⟩ | ⟨c, hc, heq⟩
      · rw [heq] at hs; exact hx d n hs
      · rw [heq] at hs
        have hs' : fupd x.schedule a (some UNASSIGNED) d = some n := hs
        by_cases hd : d = a
        · subst hd
          rw [fupd_same] at hs'
          injection hs' with hname
          exact Or.inl hname.symm
        · rw [fupd_other _ _ hd] at hs'
          exact hx d n hs'
      · rw [heq] at hs
        have hs' : fupd x.schedule a (some c.name) d = some n := hs
        by_cases hd : d = a
        · subst hd
          rw [fupd_same] at hs'
          injection hs' with hname
          exact Or.inr (hname ▸
            List.mem_map_of_mem Person.name (mem_weekdayRelaxedCands hc).1)
        · rw [fupd_other _ _ hd] at hs'
          exact hx d n hs'
    have val4 : ∀ d n, st.schedule d = some n →
        (n = UNASSIGNED ∨ n ∈ people.map Person.name) := by
      rw [hst]
      refine @foldl_inv St Person
        (fun x p => repairScan x p (weekend_dates numDays fw))
        (fun s => ∀ d n, s.schedule d = some n →
          (n = UNASSIGNED ∨ n ∈ people.map Person.name))
        ((weekend_people people).filter (fun p =>
          (weekdayPhase numDays fw people
            (weekendPhase numDays fw people st₁)).weekend_counts p.name == 1))
        (weekdayPhase numDays fw people (weekendPhase numDays fw people st₁)) ?_ val3
      intro x p hp hx d n hs
      have hs' : (repairScan x p (weekend_dates numDays fw)).schedule d = some n := hs
      rcases repairScan_cases x p (weekend_dates numDays fw) with heq |
        ⟨dd, _, _, _, _, hcase⟩
      · rw [heq] at hs'; exact hx d n hs'
      · have heq : (repairScan x p (weekend_dates numDays fw)).schedule =
            fupd x.schedule dd (some p.name) := by
          rcases hcase with ⟨_, heq⟩ | ⟨old, _, _, _, heq⟩ <;> rw [heq]
        rw [heq] at hs'
        by_cases hd : d = dd
        · subst hd
          rw [fupd_same] at hs'
          injection hs' with hname
          have : p ∈ people :=
            (mem_weekend_people.mp (List.mem_of_mem_filter hp)).1
          exact Or.inr (hname ▸ List.mem_map_of_mem Person.name this)
        · rw [fupd_other _ _ hd] at hs'
          exact hx d n hs'
    -- key coverage after the weekday phase
    have cov3 : ∀ d ∈ dates numDays,
        (((weekdayPhase numDays fw people
          (weekendPhase numDays fw people st₁)).schedule d).isSome) := by
      refine @foldl_forall St Int
        (weekdayStep numDays fw people (target_counts numDays people))
        (fun a s => ((s.schedule a).isSome : Prop))
        (dates numDays) (weekendPhase numDays fw people st₁) ?_ ?_
      · intro x a a' _ hq
        rcases weekdayStep_cases numDays fw people (target_counts numDays people) x a with
          heq | ⟨_, heq⟩ | ⟨c, _, heq⟩
        · rw [heq]; exact hq
        · rw [heq]; exact fupd_some_isSome hq
        · rw [heq]; exact fupd_some_isSome hq
      · intro x a _
        exact weekdayStep_covers numDays fw people (target_counts numDays people) x a
    have cov4 : ∀ d ∈ dates numDays, ((st.schedule d).isSome) := by
      rw [hst]
      intro d hd
      refine @foldl_inv St Person
        (fun x p => repairScan x p (weekend_dates numDays fw))
        (fun s => ((s.schedule d).isSome : Prop))
        ((weekend_people people).filter (fun p =>
          (weekdayPhase numDays fw people
            (weekendPhase numDays fw people st₁)).weekend_counts p.name == 1))
        (weekdayPhase numDays fw people (weekendPhase numDays fw people st₁)) ?_
        (cov3 d hd)
      intro x p _ hq
      have hgoal : ((repairScan x p (weekend_dates numDays fw)).schedule d).isSome → 
          ((((fun x p => repairScan x p (weekend_dates numDays fw)) x p).schedule d).isSome : Prop) :=
        fun h => h
      apply hgoal
      rcases repairScan_cases x p (weekend_dates numDays fw) with heq |
        ⟨dd, _, _, _, _, hcase⟩
      · rw [heq]; exact hq
      · have heq : (repairScan x p (weekend_dates numDays fw)).schedule =
            fupd x.schedule dd (some p.name) := by
          rcases hcase with ⟨_, heq⟩ | ⟨old, _, _, _, heq⟩ <;> rw [heq]
        rw [heq]
        exact fupd_some_isSome hq
    intro d hd
    obtain ⟨n, hn⟩ := Option.isSome_iff_exists.mp (cov4 d hd)
    exact ⟨n, hn, val4 d n hn⟩
  · -- (b) the step writes UNASSIGNED only when both candidate passes are empty
    intro x d hs
    cases hS : x.schedule d with
    | some s =>
      have hx : weekdayStep numDays fw people (target_counts numDays people) x d = x := by
        simp [weekdayStep, hS]
      rw [hx, hS] at hs
      exact Or.inl hs
    | none =>
      cases hE : (weekdayStrictCands numDays fw people
          (target_counts numDays people) x d).isEmpty with
      | true =>
        cases hsorted : pySorted (fun a b => lexLe (weekdayKey x d a) (weekdayKey x d b))
            (weekdayRelaxedCands numDays fw people x d) with
        | nil =>
          right
          exact ⟨List.isEmpty_iff.mp hE, pySorted_eq_nil hsorted⟩
        | cons c rest =>
          have hx : (weekdayStep numDays fw people (target_counts numDays people)
              x d).schedule = fupd x.schedule d (some c.name) := by
            simp [weekdayStep, hS, hE, hsorted]
          rw [hx, fupd_same] at hs
          injection hs with hname
          have hcp : c ∈ people := (mem_weekdayRelaxedCands (mem_of_pySorted_head hsorted)).1
          exact absurd hname (hU c hcp)
      | false =>
        cases hsorted : pySorted (fun a b => lexLe (weekdayKey x d a) (weekdayKey x d b))
            (weekdayStrictCands numDays fw people (target_counts numDays people) x d) with
        | nil =>
          have : weekdayStrictCands numDays fw people
              (target_counts numDays people) x d = [] := pySorted_eq_nil hsorted
          rw [this] at hE
          exact absurd hE (by simp [List.isEmpty])
        | cons c rest =>
          have hx : (weekdayStep numDays fw people (target_counts numDays people)
              x d).schedule = fupd x.schedule d (some c.name) := by
            simp [weekdayStep, hS, hE, hsorted]
          rw [hx, fupd_same] at hs
          injection hs with hname
          have hcp : c ∈ people :=
            (mem_weekdayRelaxedCands (weekdayStrict_sub_relaxed
              (mem_of_pySorted_head hsorted))).1
          exact absurd hname (hU c hcp)

/-- Witness for `C5_total_coverage`: in the four-person 28-day run, date 1
is a key of the final schedule mapped to a roster name or UNASSIGNED. -/
theorem C5_total_coverage_witness :
    ∃ n, (runState (run 28 0 fourPeople)).schedule 1 = some n ∧
      (n = UNASSIGNED ∨ n ∈ fourPeople.map Person.name) :=
  (@C5_total_coverage 28 0 fourPeople (runState (run 28 0 fourPeople))
    (by decide) rfl).1 1 (by decide)

end GuardPlanner

/-! ## Claim C6: duplicate preassignments -/

namespace GuardPlanner

theorem preassignDates_ok_mono {numDays fw : Nat} {p : Person}
    (ds : List Int) (st st' : St)
    (h : ds.foldlM (preassignDate numDays fw p) st = .ok st')
    (d : Int) (hd : (st.schedule d).isSome) : (st'.schedule d).isSome := by
  refine @foldlM_ok_inv St Int (preassignDate numDays fw p)
    (fun s => ((s.schedule d).isSome : Prop)) ds st st' h ?_ hd
  intro x a x' _ hok hx
  rcases preassignDate_ok_cases hok with ⟨rfl, _⟩ | ⟨_, _, rfl⟩
  · exact hx
  · exact fupd_some_isSome hx

theorem preassignDates_ok_est {numDays fw : Nat} {p : Person} :
    ∀ (ds : List Int) (st st' : St),
      ds.foldlM (preassignDate numDays fw p) st = .ok st' →
      ∀ d ∈ ds, ¬(d < 1 ∨ (numDays : Int) < d) → (st'.schedule d).isSome := by
  intro ds
  induction ds with
  | nil => intro st st' h d hd _; exact absurd hd (List.not_mem_nil d)
  | cons d0 rest ih =>
    intro st st' h d hd hin
    rw [List.foldlM_cons] at h
    cases hd0 : preassignDate numDays fw p st d0 with
    | error e => rw [hd0, except_bind_error] at h; exact Except.noConfusion h
    | ok st1 =>
      rw [hd0, except_bind_ok] at h
      rcases List.mem_cons.mp hd with rfl | hdrest
      · have h1 : (st1.schedule d).isSome := by
          rcases preassignDate_ok_cases hd0 with ⟨rfl, hout⟩ | ⟨_, _, rfl⟩
          · exact absurd hout hin
          · show (fupd st.schedule d (some p.name) d).isSome
            rw [fupd_same]; rfl
        exact preassignDates_ok_mono rest st1 st' h d h1
      · exact ih st1 st' h d hdrest hin

theorem preassignDates_ok_not_mem {numDays fw : Nat} {p : Person} :
    ∀ (ds : List Int) (st st' : St),
      ds.foldlM (preassignDate numDays fw p) st = .ok st' →
      ∀ d, ¬(d < 1 ∨ (numDays : Int) < d) → (st.schedule d).isSome → d ∉ ds := by
  intro ds
  induction ds with
  | nil => intro st st' _ d _ _; exact List.not_mem_nil d
  | cons d0 rest ih =>
    intro st st' h d hin hsome hdmem
    rw [List.foldlM_cons] at h
    cases hd0 : preassignDate numDays fw p st d0 with
    | error e => rw [hd0, except_bind_error] at h; exact Except.noConfusion h
    | ok st1 =>
      rw [hd0, except_bind_ok] at h
      rcases List.mem_cons.mp hdmem with rfl | hdrest
      · rcases preassignDate_ok_cases hd0 with ⟨_, hout⟩ | ⟨_, hnone, _⟩
        · exact hin hout
        · rw [hnone] at hsome; exact Bool.noConfusion hsome
      · have h1 : (st1.schedule d).isSome := by
          rcases preassignDate_ok_cases hd0 with ⟨rfl, _⟩ | ⟨_, _, rfl⟩
          · exact hsome
          · exact fupd_some_isSome hsome
        exact ih st1 st' h d hin h1 hdrest

theorem preassignDates_ok_some_origin {numDays fw : Nat} {p : Person} :
    ∀ (ds : List Int) (st st' : St),
      ds.foldlM (preassignDate numDays fw p) st = .ok st' →
      ∀ d, (st'.schedule d).isSome →
      (st.schedule d).isSome ∨ (d ∈ ds ∧ ¬(d < 1 ∨ (numDays : Int) < d)) := by
  intro ds
  induction ds with
  | nil =>
    intro st st' h d hsome
    simp only [List.foldlM_nil] at h
    cases h
    exact Or.inl hsome
  | cons d0 rest ih =>
    intro st st' h d hsome
    rw [List.foldlM_cons] at h
    cases hd0 : preassignDate numDays fw p st d0 with
    | error e => rw [hd0, except_bind_error] at h; exact Except.noConfusion h
    | ok st1 =>
      rw [hd0, except_bind_ok] at h
      rcases ih st1 st' h d hsome with h1 | ⟨hdrest, hin⟩
      · rcases preassignDate_ok_cases hd0 with ⟨rfl, _⟩ | ⟨hin0, _, rfl⟩
        · exact Or.inl h1
        · have h1' : (fupd st.schedule d0 (some p.name) d).isSome := h1
          by_cases hd : d = d0
          · subst hd
            exact Or.inr ⟨List.mem_cons_self _ _, hin0⟩
          · rw [fupd_other _ _ hd] at h1'
            exact Or.inl h1'
      · exact Or.inr ⟨List.mem_cons_of_mem d0 hdrest, hin⟩

theorem preassignDates_error_mem {numDays fw : Nat} {p : Person} :
    ∀ (ds : List Int) (st : St) (e : Err),
      ds.foldlM (preassignDate numDays fw p) st = .error e → ds.Nodup →
      ∃ ed, e = .conflictError ed ∧ ¬(ed < 1 ∨ (numDays : Int) < ed) ∧
        ed ∈ ds ∧ (st.schedule ed).isSome := by
  intro ds
  induction ds with
  | nil =>
    intro st e h _
    simp only [List.foldlM_nil] at h
    exact Except.noConfusion h
  | cons d0 rest ih =>
    intro st e h hnd
    rw [List.foldlM_cons] at h
    rw [List.nodup_cons] at hnd
    cases hd0 : preassignDate numDays fw p st d0 with
    | error e0 =>
      rw [hd0, except_bind_error] at h
      have he : e0 = e := by injection h
      obtain ⟨h1, h2, h3⟩ := preassignDate_error_cases hd0
      exact ⟨d0, he ▸ h1, h2, List.mem_cons_self _ _, h3⟩
    | ok st1 =>
      rw [hd0, except_bind_ok] at h
      obtain ⟨ed, h1, h2, h3, h4⟩ := ih st1 e h hnd.2
      refine ⟨ed, h1, h2, List.mem_cons_of_mem d0 h3, ?_⟩
      rcases preassignDate_ok_cases hd0 with ⟨rfl, _⟩ | ⟨_, _, rfl⟩
      · exact h4
      · have hne : ed ≠ d0 := fun hcon => hnd.1 (hcon ▸ h3)
        have h4' : (fupd st.schedule d0 (some p.name) ed).isSome := h4
        rw [fupd_other _ _ hne] at h4'
        exact h4'

end GuardPlanner

namespace GuardPlanner

theorem inMonth_iff {numDays : Nat} {d : Int} :
    inMonth numDays d ↔ ¬(d < 1 ∨ (numDays : Int) < d) := by
  unfold inMonth
  omega

theorem preassignPersons_ok_mono {numDays fw : Nat} :
    ∀ (ppl : List Person) (st st' : St),
      ppl.foldlM (preassignPerson numDays fw) st = .ok st' →
      ∀ d, (st.schedule d).isSome → (st'.schedule d).isSome := by
  intro ppl st st' h d hd
  refine @foldlM_ok_inv St Person (preassignPerson numDays fw)
    (fun s => ((s.schedule d).isSome : Prop)) ppl st st' h ?_ hd
  intro x p x' _ hok hx
  exact preassignDates_ok_mono p.preassigned_dates x x' hok d hx

theorem preassignPersons_ok_no_revisit {numDays fw : Nat} :
    ∀ (ppl : List Person) (st st' : St),
      ppl.foldlM (preassignPerson numDays fw) st = .ok st' →
      ∀ d, ¬(d < 1 ∨ (numDays : Int) < d) → (st.schedule d).isSome →
      ∀ q ∈ ppl, d ∉ q.preassigned_dates := by
  intro ppl
  induction ppl with
  | nil => intro st st' _ d _ _ q hq; exact absurd hq (List.not_mem_nil q)
  | cons p rest ih =>
    intro st st' h d hin hsome q hq
    rw [List.foldlM_cons] at h
    cases hp : preassignPerson numDays fw st p with
    | error e => rw [hp, except_bind_error] at h; exact Except.noConfusion h
    | ok st1 =>
      rw [hp, except_bind_ok] at h
      rcases List.mem_cons.mp hq with rfl | hqrest
      · exact preassignDates_ok_not_mem q.preassigned_dates st st1 hp d hin hsome
      · have h1 : (st1.schedule d).isSome :=
          preassignDates_ok_mono p.preassigned_dates st st1 hp d hsome
        exact ih st1 st' h d hin h1 q hqrest

theorem preassignPersons_ok_no_conflict {numDays fw : Nat} :
    ∀ (ppl : List Person) (st st' : St),
      ppl.foldlM (preassignPerson numDays fw) st = .ok st' →
      ∀ e, ¬ splitConflictAt numDays e ppl := by
  intro ppl
  induction ppl with
  | nil =>
    intro st st' _ e hsplit
    obtain ⟨l₁, p, l₂, q, l₃, hshape, _⟩ := hsplit
    exact absurd hshape (by cases l₁ <;> simp)
  | cons p0 rest ih =>
    intro st st' h e hsplit
    obtain ⟨l₁, p, l₂, q, l₃, hshape, hin, hep, heq⟩ := hsplit
    rw [List.foldlM_cons] at h
    cases hp : preassignPerson numDays fw st p0 with
    | error e0 => rw [hp, except_bind_error] at h; exact Except.noConfusion h
    | ok st1 =>
      rw [hp, except_bind_ok] at h
      have hin' : ¬(e < 1 ∨ (numDays : Int) < e) := inMonth_iff.mp hin
      cases l₁ with
      | nil =>
        rw [List.nil_append] at hshape
        injection hshape with h1 h2
        subst h1
        subst h2
        have hsome : (st1.schedule e).isSome :=
          preassignDates_ok_est p0.preassigned_dates st st1 hp e hep hin'
        exact preassignPersons_ok_no_revisit (l₂ ++ q :: l₃) st1 st' h e hin' hsome q
          (List.mem_append_right l₂ (List.mem_cons_self _ _)) heq
      | cons x l₁' =>
        rw [List.cons_append] at hshape
        injection hshape with h1 h2
        exact ih st1 st' h e ⟨l₁', p, l₂, q, l₃, h2, hin, hep, heq⟩

theorem preassignPersons_error_split {numDays fw : Nat} :
    ∀ (ppl : List Person) (st₀ : St) (e : Err),
      ppl.foldlM (preassignPerson numDays fw) st₀ = .error e →
      (∀ p ∈ ppl, p.preassigned_dates.Nodup) →
      ∃ ed, e = .conflictError ed ∧ inMonth numDays ed ∧
        (((st₀.schedule ed).isSome ∧ ∃ q ∈ ppl, ed ∈ q.preassigned_dates) ∨
          splitConflictAt numDays ed ppl) := by
  intro ppl
  induction ppl with
  | nil =>
    intro st₀ e h _
    simp only [List.foldlM_nil] at h
    exact Except.noConfusion h
  | cons p rest ih =>
    intro st₀ e h hnd
    rw [List.foldlM_cons] at h
    cases hp : preassignPerson numDays fw st₀ p with
    | error e0 =>
      rw [hp, except_bind_error] at h
      have he : e0 = e := by injection h
      obtain ⟨ed0, h1, h2, h3, h4⟩ := preassignDates_error_mem p.preassigned_dates st₀ e0 hp
        (hnd p (List.mem_cons_self _ _))
      exact ⟨ed0, he ▸ h1, inMonth_iff.mpr h2,
        Or.inl ⟨h4, p, List.mem_cons_self _ _, h3⟩⟩
    | ok st1 =>
      rw [hp, except_bind_ok] at h
      obtain ⟨ed, h1, h2, hcase⟩ := ih st1 e h
        (fun q hq => hnd q (List.mem_cons_of_mem p hq))
      refine ⟨ed, h1, h2, ?_⟩
      rcases hcase with ⟨hsome, q, hq, hqd⟩ | hsplit
      · rcases preassignDates_ok_some_origin p.preassigned_dates st₀ st1 hp ed hsome with
          hsome0 | ⟨hmem, _⟩
        · exact Or.inl ⟨hsome0, q, List.mem_cons_of_mem p hq, hqd⟩
        · obtain ⟨s, t, hst⟩ := List.append_of_mem hq
          exact Or.inr ⟨[], p, s, q, t, by simp [hst], h2, hmem, hqd⟩
      · obtain ⟨l₁, pp, l₂, qq, l₃, hshape, hin, hep, heq⟩ := hsplit
        exact Or.inr ⟨p :: l₁, pp, l₂, qq, l₃, by simp [hshape], hin, hep, heq⟩

/-- C6.  If two distinct roster entries preassign the same in-month date,
the run fails with `conflictError` — the `ValueError` of the preassignment
loop, which corresponds to the spec's `ConflictError` — carrying a date
that is itself preassigned in-month by two distinct entries.  The error is
raised inside the preassignment phase, so the weekend/weekday/repair
allocators never execute and no schedule is produced.  Hypothesis: each
person's preassigned-date set has no duplicates (it is a Python `set`). -/
theorem C6_duplicate_preassignment {numDays fw : Nat} {people : List Person}
    (hnodup : ∀ p ∈ people, p.preassigned_dates.Nodup)
    (hconf : ∃ e, splitConflictAt numDays e people) :
    ∃ e, run numDays fw people = .error (.conflictError e) ∧
      splitConflictAt numDays e people := by
  obtain ⟨e₀, l₁, p, l₂, q, l₃, hshape, hin, hep, heq⟩ := hconf
  have hne : people.isEmpty = false := by
    rw [hshape]; cases l₁ <;> rfl
  cases hP : preassignAll numDays fw people with
  | ok st₁ =>
    exact absurd ⟨l₁, p, l₂, q, l₃, hshape, hin, hep, heq⟩
      (preassignPersons_ok_no_conflict people St.init st₁ hP e₀)
  | error err =>
    obtain ⟨ed, herr, hin', hcase⟩ :=
      preassignPersons_error_split people St.init err hP hnodup
    rcases hcase with ⟨habs, _⟩ | hsplit
    · exact absurd habs (by simp [St.init])
    · refine ⟨ed, ?_, hsplit⟩
      unfold run
      rw [hne]
      simp only [Bool.false_eq_true, if_false]
      show (preassignAll numDays fw people >>= _) = _
      rw [hP, except_bind_error, herr]

/-- Witness for `C6_duplicate_preassignment`: Ann and Ben are both
preassigned to day 5, and the run fails with a `conflictError` on a date
doubly preassigned in-month. -/
theorem C6_duplicate_preassignment_witness :
    ∃ e, run 28 0 duplicatePrePeople = .error (.conflictError e) ∧
      splitConflictAt 28 e duplicatePrePeople :=
  C6_duplicate_preassignment (by decide)
    ⟨5, [], ⟨"Ann", false, [], 0, [5]⟩, [], ⟨"Ben", false, [], 0, [5]⟩, [],
      rfl, by decide, by decide, by decide⟩

end GuardPlanner

/-! ## Claim C8: the repair pass is monotone on the count of
single-weekend people -/

namespace GuardPlanner

theorem count1_repairScan_le (numDays fw : Nat) (people : List Person) (st : St)
    (p : Person) (hp1 : st.weekend_counts p.name = 1) :
    count1 people (repairScan st p (weekend_dates numDays fw)) ≤ count1 people st ∧
    ∀ m, st.weekend_counts m = 1 → m ≠ p.name →
      (repairScan st p (weekend_dates numDays fw)).weekend_counts m = 1 := by
  rcases repairScan_cases st p (weekend_dates numDays fw) with heq | ⟨d, _, _, _, _, hcase⟩
  · rw [heq]; exact ⟨Nat.le_refl _, fun m hm _ => hm⟩
  · rcases hcase with ⟨_, heq⟩ | ⟨old, _, hne, hge3, heq⟩
    · have hwc : (repairScan st p (weekend_dates numDays fw)).weekend_counts =
          fupd st.weekend_counts p.name (st.weekend_counts p.name + 1) := by rw [heq]
      constructor
      · unfold count1
        refine List.countP_mono_left ?_
        intro q _ hq
        rw [hwc] at hq
        by_cases hqp : q.name = p.name
        · rw [hqp, fupd_same, hp1] at hq
          exact absurd hq (by decide)
        · rw [fupd_other _ _ hqp] at hq
          exact hq
      · intro m hm hmp
        rw [hwc, fupd_other _ _ hmp]
        exact hm
    · have hwc : (repairScan st p (weekend_dates numDays fw)).weekend_counts =
          fupd (fupd st.weekend_counts p.name (st.weekend_counts p.name + 1)) old
            (st.weekend_counts old - 1) := by rw [heq]
      constructor
      · unfold count1
        refine List.countP_mono_left ?_
        intro q _ hq
        rw [hwc] at hq
        by_cases hqo : q.name = old
        · rw [hqo, fupd_same] at hq
          have : st.weekend_counts old - 1 = 1 := beq_iff_eq.mp hq
          omega
        · rw [fupd_other _ _ hqo] at hq
          by_cases hqp : q.name = p.name
          · rw [hqp, fupd_same, hp1] at hq
            exact absurd hq (by decide)
          · rw [fupd_other _ _ hqp] at hq
            exact hq
      · intro m hm hmp
        have hmo : m ≠ old := fun hcon => by rw [hcon] at hm; omega
        rw [hwc, fupd_other _ _ hmo, fupd_other _ _ hmp]
        exact hm

theorem count1_repairFold_le (numDays fw : Nat) (people : List Person) :
    ∀ (l : List Person) (st : St),
      (∀ q ∈ l, st.weekend_counts q.name = 1) →
      ((l.map Person.name).Nodup) →
      count1 people (l.foldl (fun x p => repairScan x p (weekend_dates numDays fw)) st) ≤
        count1 people st := by
  intro l
  induction l with
  | nil => intro st _ _; exact Nat.le_refl _
  | cons p t ih =>
    intro st hall hnd
    rw [List.foldl_cons]
    rw [List.map_cons, List.nodup_cons] at hnd
    have hp1 : st.weekend_counts p.name = 1 := hall p (List.mem_cons_self _ _)
    obtain ⟨hle, hpres⟩ := count1_repairScan_le numDays fw people st p hp1
    refine Nat.le_trans (ih (repairScan st p (weekend_dates numDays fw)) ?_ hnd.2) hle
    intro q hq
    have hq1 : st.weekend_counts q.name = 1 := hall q (List.mem_cons_of_mem p hq)
    have hqp : q.name ≠ p.name := by
      intro hcon
      exact hnd.1 (hcon ▸ List.mem_map_of_mem Person.name hq)
    exact hpres q.name hq1 hqp

/-- C8.  For every pre-repair state, the number of weekend-needing people
whose `weekend_counts` is exactly 1 after the Weekend Repair Pass is at
most that number before the pass: each person the pass visits started at 1
(the `people_with_one` snapshot) and is moved to 2 or left at 1, and a swap
only lowers the previous holder from ≥ 3 to ≥ 2, never creating a new 1.
Roster hypothesis: names are unique. -/
theorem C8_repair_monotone (numDays fw : Nat) (people : List Person) (st : St)
    (hnd : (people.map Person.name).Nodup) :
    count1 people (repairPhase numDays fw people st) ≤ count1 people st := by
  have hrw : repairPhase numDays fw people st =
      ((weekend_people people).filter (fun p => st.weekend_counts p.name == 1)).foldl
        (fun x p => repairScan x p (weekend_dates numDays fw)) st := rfl
  rw [hrw]
  refine count1_repairFold_le numDays fw people _ st ?_ ?_
  · intro q hq
    have h := List.of_mem_filter hq
    exact beq_iff_eq.mp h
  · have h1 : ((weekend_people people).map Person.name).Nodup :=
      List.Nodup.sublist ((List.filter_sublist people).map Person.name) hnd
    exact List.Nodup.sublist ((List.filter_sublist _).map Person.name) h1

/-- Witness for `C8_repair_monotone` at the four-person roster and the
state reached just before the repair pass in the 28-day run. -/
theorem C8_repair_monotone_witness :
    count1 fourPeople (repairPhase 28 0 fourPeople (runState (run 28 0 fourPeople))) ≤
      count1 fourPeople (runState (run 28 0 fourPeople)) :=
  C8_repair_monotone 28 0 fourPeople (runState (run 28 0 fourPeople)) (by decide)

end GuardPlanner

/-! ## Claim C9: the rollover seed -/

namespace GuardPlanner

set_option maxRecDepth 40000

/-- C9.  For every completed run, the rollover seed (built from any
permutation `shuffled` of the roster — the source shuffles `people` first)
contains exactly one record per roster member, whose `duties_last_month` is
that member's final `assigned_counts` and whose `unavailable_dates` is
reset to the empty list.  Roster hypothesis: names are unique. -/
theorem C9_rollover {numDays fw : Nat} {people : List Person} {st : St}
    (shuffled : List Person)
    (hrun : run numDays fw people = .ok st)
    (hperm : shuffled.Perm people)
    (hnd : (people.map Person.name).Nodup) :
    ∀ p ∈ people,
      (next_data shuffled st).countP (fun r => r.name == p.name) = 1 ∧
      ∀ r ∈ next_data shuffled st, r.name = p.name →
        r.duties_last_month = st.assigned_counts p.name ∧
        r.unavailable_dates = [] := by
  intro p hp
  constructor
  · unfold next_data
    rw [List.countP_map]
    show List.countP (fun q : Person => q.name == p.name) shuffled = 1
    rw [hperm.countP_eq]
    have h1 := List.count_eq_one_of_mem hnd (List.mem_map_of_mem Person.name hp)
    rw [List.count_eq_countP, List.countP_map] at h1
    exact h1
  · intro r hr hrname
    obtain ⟨q, hq, hqr⟩ := List.mem_map.mp hr
    have hqp : q ∈ people := hperm.mem_iff.mp hq
    have hqname : q.name = p.name := by rw [← hrname, ← hqr]
    have hqeq : q = p := List.inj_on_of_nodup_map hnd hqp hp hqname
    rw [← hqr, ← hqeq]
    exact ⟨rfl, rfl⟩

/-- Witness for `C9_rollover`: the four-person run, rolled over without
shuffling (the identity permutation), has exactly one record named
"Alice". -/
theorem C9_rollover_witness :
    (next_data fourPeople (runState (run 28 0 fourPeople))).countP
      (fun r => r.name == "Alice") = 1 :=
  (@C9_rollover 28 0 fourPeople (runState (run 28 0 fourPeople)) fourPeople rfl
    (List.Perm.refl fourPeople) (by decide)
    ⟨"Alice", false, [], 0, []⟩ (by decide)).1

end GuardPlanner

/-! ## Claim C10: out-of-month preassigned dates -/

namespace GuardPlanner

set_option maxRecDepth 40000

theorem preassignDate_name_congr {numDays fw : Nat} {p p' : Person}
    (hn : p'.name = p.name) :
    preassignDate numDays fw p' = preassignDate numDays fw p := by
  funext st d
  unfold preassignDate
  rw [hn]

theorem preassignDates_filter {numDays fw : Nat} (p : Person) :
    ∀ (ds : List Int) (st : St),
      (ds.filter (fun d => !(d < 1 || (numDays : Int) < d))).foldlM
        (preassignDate numDays fw p) st =
      ds.foldlM (preassignDate numDays fw p) st := by
  intro ds
  induction ds with
  | nil => intro st; rfl
  | cons d rest ih =>
    intro st
    cases hm : (d < 1 || (numDays : Int) < d) with
    | true =>
      rw [List.filter_cons_of_neg (by simp [hm])]
      rw [List.foldlM_cons]
      have hskip : preassignDate numDays fw p st d = Except.ok st := by
        unfold preassignDate
        rw [hm]
        rfl
      rw [hskip, except_bind_ok]
      exact ih st
    | false =>
      rw [List.filter_cons_of_pos (by simp [hm])]
      rw [List.foldlM_cons, List.foldlM_cons]
      cases hstep : preassignDate numDays fw p st d with
      | error e => rw [except_bind_error, except_bind_error]
      | ok st1 =>
        rw [except_bind_ok, except_bind_ok]
        exact ih st1

theorem preassignPerson_drop {numDays fw : Nat} (st : St) (p : Person) :
    preassignPerson numDays fw st (dropOutOfMonth numDays p) =
    preassignPerson numDays fw st p := by
  show ((dropOutOfMonth numDays p).preassigned_dates).foldlM
      (preassignDate numDays fw (dropOutOfMonth numDays p)) st =
    p.preassigned_dates.foldlM (preassignDate numDays fw p) st
  rw [preassignDate_name_congr (show (dropOutOfMonth numDays p).name = p.name from rfl)]
  exact preassignDates_filter p p.preassigned_dates st

theorem preassignAll_drop (numDays fw : Nat) (people : List Person) :
    preassignAll numDays fw (people.map (dropOutOfMonth numDays)) =
    preassignAll numDays fw people := by
  unfold preassignAll
  rw [List.foldlM_map]
  have hf : (fun (st : St) (p : Person) =>
      preassignPerson numDays fw st (dropOutOfMonth numDays p)) =
      preassignPerson numDays fw := by
    funext st p
    exact preassignPerson_drop st p
  rw [hf]

theorem run_out_of_month_none {numDays fw : Nat} {people : List Person} {st : St}
    (hrun : run numDays fw people = .ok st) :
    ∀ d : Int, (d < 1 ∨ (numDays : Int) < d) → st.schedule d = none := by
  obtain ⟨st₁, hP, hst⟩ := run_ok_decompose hrun
  intro d hout
  have hne_dates : ∀ a ∈ dates numDays, d ≠ a := by
    intro a ha hcon
    obtain ⟨h1, h2⟩ := mem_dates.mp ha
    subst hcon
    rcases hout with h | h <;> omega
  have inv1 : st₁.schedule d = none := by
    refine @foldlM_ok_inv St Person (preassignPerson numDays fw)
      (fun s => s.schedule d = none) people St.init st₁ hP ?_ rfl
    intro x p x' _ hok hx
    refine @foldlM_ok_inv St Int (preassignDate numDays fw p)
      (fun s => s.schedule d = none) p.preassigned_dates x x' hok ?_ hx
    intro y dd y' _ hdok hy
    rcases preassignDate_ok_cases hdok with ⟨rfl, _⟩ | ⟨hin, _, rfl⟩
    · exact hy
    · show fupd y.schedule dd (some p.name) d = none
      rw [fupd_other]
      · exact hy
      · intro hcon
        rw [hcon] at hout
        exact hin hout
  have inv2 : (weekendPhase numDays fw people st₁).schedule d = none := by
    refine @foldl_inv St Int (weekendStep people) (fun s => s.schedule d = none)
      (weekend_dates numDays fw) st₁ ?_ inv1
    intro x a ha hx
    rcases weekendStep_cases people x a with heq | ⟨c, _, heq⟩
    · rw [heq]; exact hx
    · rw [heq]
      show fupd x.schedule a (some c.name) d = none
      rw [fupd_other _ _ (hne_dates a (mem_weekend_dates.mp ha).1)]
      exact hx
  have inv3 : (weekdayPhase numDays fw people
      (weekendPhase numDays fw people st₁)).schedule d = none := by
    refine @foldl_inv St Int
      (weekdayStep numDays fw people (target_counts numDays people))
      (fun s => s.schedule d = none)
      (dates numDays) (weekendPhase numDays fw people st₁) ?_ inv2
    intro x a ha hx
    rcases weekdayStep_cases numDays fw people (target_counts numDays people) x a with
      heq | ⟨_, heq⟩ | ⟨c, _, heq⟩
    · rw [heq]; exact hx
    · rw [heq]
      show fupd x.schedule a (some UNASSIGNED) d = none
      rw [fupd_other _ _ (hne_dates a ha)]
      exact hx
    · rw [heq]
      show fupd x.schedule a (some c.name) d = none
      rw [fupd_other _ _ (hne_dates a ha)]
      exact hx
  rw [hst]
  refine @foldl_inv St Person
    (fun x p => repairScan x p (weekend_dates numDays fw))
    (fun s => s.schedule d = none)
    ((weekend_people people).filter (fun p =>
      (weekdayPhase numDays fw people
        (weekendPhase numDays fw people st₁)).weekend_counts p.name == 1))
    (weekdayPhase numDays fw people (weekendPhase numDays fw people st₁)) ?_ inv3
  intro x p _ hx
  show (repairScan x p (weekend_dates numDays fw)).schedule d = none
  rcases repairScan_cases x p (weekend_dates numDays fw) with heq |
    ⟨dd, hdd, _, _, _, hcase⟩
  · rw [heq]; exact hx
  · have heq : (repairScan x p (weekend_dates numDays fw)).schedule =
        fupd x.schedule dd (some p.name) := by
      rcases hcase with ⟨_, heq⟩ | ⟨old, _, _, _, heq⟩ <;> rw [heq]
    rw [heq]
    rw [fupd_other _ _ (hne_dates dd (mem_weekend_dates.mp hdd).1)]
    exact hx

/-- C10.  Out-of-month preassigned dates are silently skipped: (1) the
whole preassignment phase — its final state *and* its error behaviour — is
unchanged if every out-of-month preassigned date is deleted from the
roster first, so such a date updates no schedule entry and no counter and
raises no error even when two people share it; (2) in every completed run
no date outside the target month is a key of the final schedule. -/
theorem C10_out_of_month {numDays fw : Nat} {people : List Person} {st : St}
    (hrun : run numDays fw people = .ok st) :
    preassignAll numDays fw (people.map (dropOutOfMonth numDays)) =
      preassignAll numDays fw people ∧
    ∀ d : Int, (d < 1 ∨ (numDays : Int) < d) → st.schedule d = none :=
  ⟨preassignAll_drop numDays fw people, run_out_of_month_none hrun⟩

/-- Witness for `C10_out_of_month`: both people share the out-of-month
date −3 (and one has date 40 past the month's end); the run succeeds, the
preassignment phase is unchanged by dropping those dates, and −3 is not a
key of the final schedule. -/
theorem C10_out_of_month_witness :
    (preassignAll 28 0 (outOfMonthPeople.map (dropOutOfMonth 28)) =
      preassignAll 28 0 outOfMonthPeople) ∧
    (runState (run 28 0 outOfMonthPeople)).schedule (-3) = none :=
  ⟨(@C10_out_of_month 28 0 outOfMonthPeople
      (runState (run 28 0 outOfMonthPeople)) rfl).1,
    (@C10_out_of_month 28 0 outOfMonthPeople
      (runState (run 28 0 outOfMonthPeople)) rfl).2 (-3) (by decide)⟩

end GuardPlanner
